import Mathlib

/-!
Verification of the devexy resource-reconciliation and port-routing engine.

The development shallowly embeds the Python sources:
  * `devexy/k8s/utils.py` (manifest accessors, canonical YAML, proxy template),
  * `devexy/utils/k8s.py` (legacy identity helpers),
  * `devexy/tools/tool.py` and `devexy/tools/kubectl.py` (process adapter),
  * `devexy/k8s/models/resource.py` (the Resource entity),
  * `devexy/commands/minikube/inspect.py` and `devexy/commands/workon.py`
    (reconciler and interactive controller).

Manifest documents are modelled by the mutual inductive `Val` (YAML/JSON
values restricted to strings, integers, booleans, null, sequences and
string-keyed mappings, which is the value domain the tool manipulates).
Python dictionaries are association lists in insertion order; Python
exceptions are modelled with `Except PyErr`.
-/

set_option maxHeartbeats 1000000

namespace Devexy

/-- Python exception kinds that the embedded code can raise. -/
inductive PyErr where
  | valueError
  | typeError
  | keyError
  | attributeError
  deriving DecidableEq, Repr

mutual
/-- A YAML/JSON value as handled by the tool (the result of
`yaml.safe_load` on manifest streams): scalars, sequences and
string-keyed mappings. -/
inductive Val where
  | vstr (s : String)
  | vint (n : Int)
  | vbool (b : Bool)
  | vnull
  | varr (elems : Elems)
  | vobj (fields : Fields)
  deriving DecidableEq, Repr

/-- A YAML sequence (list of values). -/
inductive Elems where
  | nil
  | cons (hd : Val) (tl : Elems)
  deriving DecidableEq, Repr

/-- A YAML mapping as a Python dict: an association list in insertion
order with string keys. -/
inductive Fields where
  | nil
  | cons (key : String) (val : Val) (tl : Fields)
  deriving DecidableEq, Repr
end

namespace Fields

/-- Python `d.get(k)`: the value at the first occurrence of `k`, if any. -/
def lookup (k : String) : Fields → Option Val
  | nil => none
  | cons k' v t => if k' = k then some v else lookup k t

/-- Python `k in d`. -/
def hasKey (k : String) : Fields → Bool
  | nil => false
  | cons k' _ t => k' = k || hasKey k t

/-- Python `d[k] = v`: replace the first binding of `k` in place, or
append a fresh binding at the end (dict insertion-order semantics). -/
def set (k : String) (v : Val) : Fields → Fields
  | nil => cons k v nil
  | cons k' v' t => if k' = k then cons k' v t else cons k' v' (set k v t)

/-- Keys of the mapping, in order. -/
def keys : Fields → List String
  | nil => []
  | cons k _ t => k :: keys t

/-- Number of entries. -/
def length : Fields → Nat
  | nil => 0
  | cons _ _ t => length t + 1

/-- The association list underlying the mapping. -/
def toList : Fields → List (String × Val)
  | nil => []
  | cons k v t => (k, v) :: toList t

end Fields

namespace Elems

/-- Underlying list of a sequence. -/
def toList : Elems → List Val
  | nil => []
  | cons v t => v :: toList t

/-- Length of the sequence. -/
def length : Elems → Nat
  | nil => 0
  | cons _ t => length t + 1

/-- Python `xs[0]` on a sequence, if nonempty. -/
def head : Elems → Option Val
  | nil => none
  | cons v _ => some v

end Elems

/-- Python truthiness (`bool(x)`) on the modelled values: empty strings,
zero, `False`, `None` and empty containers are falsy. -/
def pyTruthy : Val → Bool
  | .vstr s => s ≠ ""
  | .vint n => n ≠ 0
  | .vbool b => b
  | .vnull => false
  | .varr e => e.length ≠ 0
  | .vobj f => f.length ≠ 0

/-- Character of a decimal digit `d < 10`. -/
def digitChar (d : Nat) : Char := Char.ofNat (48 + d)

/-- Decimal digits of a natural number, most significant first
(`str(n)` for `n ≥ 0`). -/
def natChars (n : Nat) (acc : List Char) : List Char :=
  if h : n < 10 then digitChar n :: acc
  else natChars (n / 10) (digitChar (n % 10) :: acc)
  termination_by n
  decreasing_by exact Nat.div_lt_self (by omega) (by omega)

/-- Python `str(n)` for an integer. -/
def intChars (n : Int) : List Char :=
  if n < 0 then '-' :: natChars n.natAbs [] else natChars n.natAbs []

/-- Python `str(n)` as a `String`. -/
def intStr (n : Int) : String := String.mk (intChars n)

end Devexy

namespace Devexy

mutual
/-- Python `repr(x)` on the modelled values (string escaping edge cases
are outside the modelled domain). -/
def pyReprV : Val → String
  | .vstr s => "\x27" ++ s ++ "\x27"
  | .vint n => intStr n
  | .vbool b => if b then "True" else "False"
  | .vnull => "None"
  | .varr e => "[" ++ pyReprE e ++ "]"
  | .vobj f => "\x7b" ++ pyReprF f ++ "\x7d"

/-- Comma-separated reprs of sequence elements. -/
def pyReprE : Elems → String
  | .nil => ""
  | .cons v .nil => pyReprV v
  | .cons v t => pyReprV v ++ ", " ++ pyReprE t

/-- Comma-separated reprs of mapping entries. -/
def pyReprF : Fields → String
  | .nil => ""
  | .cons k v .nil => "\x27" ++ k ++ "\x27: " ++ pyReprV v
  | .cons k v t => "\x27" ++ k ++ "\x27: " ++ pyReprV v ++ ", " ++ pyReprF t
end

/-- Python `str(x)`: identity on strings, decimal on integers,
`True`/`False`/`None` keywords, `repr` on containers. -/
def pyStr : Val → String
  | .vstr s => s
  | .vint n => intStr n
  | .vbool b => if b then "True" else "False"
  | .vnull => "None"
  | .varr e => pyReprV (.varr e)
  | .vobj f => pyReprV (.vobj f)

/-- Python `dict(x)`. Mappings are copied; every other modelled value
raises `TypeError` (iterables of key/value pairs are outside the
modelled domain). -/
def pyDict : Val → Except PyErr Fields
  | .vobj f => .ok f
  | _ => .error .typeError

/-- Python `list(x)`. Sequences are copied; every other modelled value
raises `TypeError` (iterating strings or dicts is outside the modelled
use). -/
def pyList : Val → Except PyErr Elems
  | .varr e => .ok e
  | _ => .error .typeError

/-- Whitespace characters stripped by Python `str.strip()` and by
`int(str)`. -/
def isPySpace (c : Char) : Bool :=
  c = ' ' || c = '\t' || c = '\n' || c = '\x0d' || c = '\x0b' || c = '\x0c'

/-- Python `str.strip()` on the character list. -/
def stripChars (cs : List Char) : List Char :=
  ((cs.dropWhile isPySpace).reverse.dropWhile isPySpace).reverse

/-- Python `str.strip()`. -/
def pyStrip (s : String) : String := String.mk (stripChars s.data)

/-- Python `str.endswith(suffix)`. -/
def endsWith (s suffix : String) : Bool := suffix.data.isSuffixOf s.data

mutual
/-- Digit run acceptable to Python `int(str)`: a digit followed by more
digits or single separating underscores. -/
def usOk : List Char → Bool
  | [] => false
  | c :: rest => c.isDigit && usTail rest

/-- Continuation of a digit run: digits, or an underscore that must be
followed by another digit-led run. -/
def usTail : List Char → Bool
  | [] => true
  | c :: rest => if c = '_' then usOk rest else c.isDigit && usTail rest
end

/-- Numeric value of a digit/underscore run (underscores ignored). -/
def digitsVal (cs : List Char) : Nat :=
  (cs.filter (· ≠ '_')).foldl (fun a c => a * 10 + (c.toNat - 48)) 0

/-- Python `int(s)` on a string: optional surrounding whitespace, an
optional sign, then digits with optional single underscores between
them; anything else raises `ValueError`. -/
def pyIntOfStr (s : String) : Except PyErr Int :=
  match stripChars s.data with
  | '-' :: rest => if usOk rest then .ok (-(digitsVal rest : Int)) else .error .valueError
  | '+' :: rest => if usOk rest then .ok (digitsVal rest) else .error .valueError
  | cs => if usOk cs then .ok (digitsVal cs) else .error .valueError

/-- Python `int(x)` on a modelled value: integers pass through,
booleans coerce, strings are parsed, everything else raises
`TypeError`. -/
def pyInt : Val → Except PyErr Int
  | .vint n => .ok n
  | .vbool b => .ok (if b then 1 else 0)
  | .vstr s => pyIntOfStr s
  | _ => .error .typeError

/-- Modelled from the spec: `devexy.constants.K8S_REVERSE_PROXY_CONTAINER_NAME`.
The module `devexy/constants.py` is not part of the source snapshot; §6 of
the spec fixes the proxy container name as `devexy-reverse-proxy`. -/
def K8S_REVERSE_PROXY_CONTAINER_NAME : String := "devexy-reverse-proxy"

/-- Modelled from the spec: `devexy.constants.K8S_DEFAULT_NAMESPACE`.
The module `devexy/constants.py` is not part of the source snapshot; the
spec fixes the default namespace as `"default"`. -/
def K8S_DEFAULT_NAMESPACE : String := "default"

/-- Modelled from the spec: `devexy.settings.LOCAL_PORT_ANNOTATION` (the
name is imported by `devexy/k8s/utils.py` but its definition is missing
from the snapshot of `settings.py`); the spec names the annotation
`devexy/local-port`. -/
def LOCAL_PORT_ANNOTATION : String := "devexy/local-port"

/-- ASCII lowercase of a character (Python `str.lower()` on the ASCII
domain the tool deals in). -/
def lowerChar (c : Char) : Char :=
  if 'A' ≤ c ∧ c ≤ 'Z' then Char.ofNat (c.toNat + 32) else c

/-- Python `s.lower()`. -/
def lowerStr (s : String) : String := String.mk (s.data.map lowerChar)

/-- Scalable kinds, from `devexy/k8s/utils.py`. -/
def SCALABLE_KINDS : List String := ["deployment", "replicaset", "statefulset"]

/-- Embeds `get_kind` from `devexy/k8s/utils.py`:
`str(doc.get("kind", default))`. The default `K8S_DEFAULT_RESOURCE_KIND`
is a constant whose value is not in the snapshot, so it is passed as the
`default` argument. -/
def get_kind (default : String) (doc : Fields) : String :=
  match doc.lookup "kind" with
  | some v => pyStr v
  | none => default

/-- Embeds `get_spec` from `devexy/k8s/utils.py`:
`dict(doc.get("spec", {}))`. -/
def get_spec (doc : Fields) : Except PyErr Fields :=
  pyDict ((doc.lookup "spec").getD (.vobj .nil))

/-- Embeds `get_metadata` from `devexy/k8s/utils.py`:
`dict(doc.get("metadata", {}))`. -/
def get_metadata (doc : Fields) : Except PyErr Fields :=
  pyDict ((doc.lookup "metadata").getD (.vobj .nil))

/-- Embeds `get_annotations` from `devexy/k8s/utils.py`:
`dict(get_metadata(doc).get("annotations", {}))`. -/
def get_annotations (doc : Fields) : Except PyErr Fields := do
  let m ← get_metadata doc
  pyDict ((m.lookup "annotations").getD (.vobj .nil))

/-- Embeds `get_namespace` from `devexy/k8s/utils.py`:
`str(get_metadata(doc).get("namespace", default))` with default
`K8S_DEFAULT_NAMESPACE`. -/
def get_namespace (default : String) (doc : Fields) : Except PyErr String := do
  let m ← get_metadata doc
  match m.lookup "namespace" with
  | some v => pure (pyStr v)
  | none => pure default

/-- Embeds `get_name` from `devexy/k8s/utils.py`:
`str(get_metadata(doc).get("name", default))`. The default
`K8S_DEFAULT_RESOURCE_NAME` is a module-level constant whose value is
not in the snapshot; it is passed as the `default` argument. Note that
it is a fixed string, independent of the document. -/
def get_name (default : String) (doc : Fields) : Except PyErr String := do
  let m ← get_metadata doc
  match m.lookup "name" with
  | some v => pure (pyStr v)
  | none => pure default

/-- Embeds `get_key` from `devexy/k8s/utils.py`:
`f"{get_namespace(doc)}/{get_kind(doc)}/{get_name(doc)}".lower()`.
`dk` and `dn` stand for the constants `K8S_DEFAULT_RESOURCE_KIND` and
`K8S_DEFAULT_RESOURCE_NAME` whose values are not in the snapshot. -/
def get_key (dk dn : String) (doc : Fields) : Except PyErr String := do
  let ns ← get_namespace K8S_DEFAULT_NAMESPACE doc
  let n ← get_name dn doc
  pure (lowerStr (ns ++ "/" ++ get_kind dk doc ++ "/" ++ n))

/-- Embeds `get_spec_template` from `devexy/k8s/utils.py`:
`dict(get_spec(doc).get("template", {}))`. -/
def get_spec_template (doc : Fields) : Except PyErr Fields := do
  let s ← get_spec doc
  pyDict ((s.lookup "template").getD (.vobj .nil))

/-- Embeds `get_spec_containers` from `devexy/k8s/utils.py`:
`list(get_spec(doc).get("containers", []))`. -/
def get_spec_containers (doc : Fields) : Except PyErr Elems := do
  let s ← get_spec doc
  pyList ((s.lookup "containers").getD (.varr .nil))

/-- Embeds `get_first_container` from `devexy/k8s/utils.py`: the first
entry of `spec.template.spec.containers`, or `None`. -/
def get_first_container (doc : Fields) : Except PyErr (Option Val) := do
  let t ← get_spec_template doc
  let s ← get_spec t
  let cs ← pyList ((s.lookup "containers").getD (.varr .nil))
  pure cs.head

/-- Embeds `get_replicas` from `devexy/k8s/utils.py`:
`get_spec(doc).get("replicas", default)` with default `None`
(`None` is modelled as `vnull`). -/
def get_replicas (doc : Fields) : Except PyErr Val := do
  let s ← get_spec doc
  pure ((s.lookup "replicas").getD .vnull)

/-- Embeds `get_local_port` from `devexy/k8s/utils.py`: reads the
`devexy/local-port` annotation and converts it with `int(...)`,
returning `None` when the annotation is absent (or explicitly null,
which Python's `is not None` test conflates with absence). A malformed
value makes `int(...)` raise. -/
def get_local_port (doc : Fields) : Except PyErr (Option Int) := do
  let anns ← get_annotations doc
  match anns.lookup LOCAL_PORT_ANNOTATION with
  | some .vnull => pure none
  | some v => do
      let n ← pyInt v
      pure (some n)
  | none => pure none

/-- Embeds `is_proxy_installed` from `devexy/k8s/utils.py`: the first
container of the pod template is named `devexy-reverse-proxy`.
Python compares `container.get("name")` with `==`, which is `False`
for any non-string name. -/
def is_proxy_installed (doc : Fields) : Except PyErr Bool := do
  let c ← get_first_container doc
  let f ← match c with
    | some v => pyDict v <|> pure .nil
    | none => pure .nil
  pure (f.lookup "name" = some (.vstr K8S_REVERSE_PROXY_CONTAINER_NAME))

end Devexy

namespace Devexy

/-- A physical output line: indentation width and content characters. -/
abbrev Line := Nat × List Char

/-- Insert a binding into a key-sorted field list (string order on
keys, as `yaml.dump(..., sort_keys=True)` sorts them). -/
def insF (k : String) (v : Val) : Fields → Fields
  | .nil => .cons k v .nil
  | .cons k' v' t => if k ≤ k' then .cons k v (.cons k' v' t) else .cons k' v' (insF k v t)

/-- Sort a field list by key (insertion sort). -/
def sortF : Fields → Fields
  | .nil => .nil
  | .cons k v t => insF k v (sortF t)

mutual
/-- Recursively key-sort every mapping in a value. `yaml.dump` with
`sort_keys=True` emits mappings in sorted key order at every level, so
the emitted text of `v` equals the in-order emission of `canonV v`. -/
def canonV : Val → Val
  | .varr e => .varr (canonE e)
  | .vobj f => .vobj (sortF (canonF f))
  | v => v

/-- Map `canonV` over a sequence. -/
def canonE : Elems → Elems
  | .nil => .nil
  | .cons v t => .cons (canonV v) (canonE t)

/-- Map `canonV` over the values of a field list (order untouched). -/
def canonF : Fields → Fields
  | .nil => .nil
  | .cons k v t => .cons k (canonV v) (canonF t)
end

/-- Characters of a scalar (or empty-container) value as PyYAML emits
it inline; `none` for nonempty containers, which get block layout. -/
def scalarChars : Val → Option (List Char)
  | .vstr s => some s.data
  | .vint n => some (intChars n)
  | .vbool b => some (if b then "true".data else "false".data)
  | .vnull => some ("null".data)
  | .varr .nil => some ("[]".data)
  | .vobj .nil => some ("\x7b\x7d".data)
  | _ => none

mutual
/-- Block-layout lines of a nonempty container value at indent `i`
(mappings indent their entries at `i`, matching the caller's choice). -/
def emitV (i : Nat) : Val → List Line
  | .varr e => emitE i e
  | .vobj f => emitF i f
  | _ => []

/-- Lines of a field list at indent `i`, in the PyYAML block style:
scalar values inline after `": "`, nonempty mappings on following lines
at `i + 2`, nonempty sequences on following lines at the key's own
indent `i`. -/
def emitF (i : Nat) : Fields → List Line
  | .nil => []
  | .cons k v t =>
      (match scalarChars v with
       | some sc => [(i, k.data ++ ':' :: ' ' :: sc)]
       | none =>
           (i, k.data ++ [':']) ::
             (match v with
              | .varr e => emitE i e
              | v' => emitV (i + 2) v'))
      ++ emitF i t

/-- Lines of a sequence at indent `i`: each item is `"- "` followed by
the inline scalar, or by the first content line of the item's block at
`i + 2` (PyYAML compacts the first line of a block item onto the dash
line). -/
def emitE (i : Nat) : Elems → List Line
  | .nil => []
  | .cons v t =>
      (match scalarChars v with
       | some sc => [(i, '-' :: ' ' :: sc)]
       | none =>
           match emitV (i + 2) v with
           | [] => []
           | (_, c) :: rest => (i, '-' :: ' ' :: c) :: rest)
      ++ emitE i t
end

/-- Render a line: indentation spaces, content, newline. -/
def renderLine (l : Line) : List Char := List.replicate l.1 ' ' ++ l.2 ++ ['\n']

/-- Join rendered lines. -/
def joinLines (ls : List Line) : List Char := ls.foldr (fun l acc => renderLine l ++ acc) []

/-- Embeds `dict_to_yaml` from `devexy/k8s/utils.py` (the identical
helper also lives in `devexy/utils/k8s.py`):
`yaml.dump(doc, sort_keys=True, default_flow_style=False)` on the
modelled value domain. An empty document emits the flow form. -/
def dict_to_yaml (doc : Fields) : String :=
  match sortF (canonF doc) with
  | .nil => String.mk ('\x7b' :: '\x7d' :: '\n' :: [])
  | f => String.mk (joinLines (emitF 0 f))

/-- Embeds `quick_hash` from `devexy/utils/text.py`: the hex SHA-1 of
the UTF-8 text. The digest function itself is an opaque deterministic
map, passed as the `sha1` argument; no property proved here depends on
its internals. -/
def quick_hash (sha1 : String → String) (text : String) : String := sha1 text

/-- Canonical-YAML apply-identity of a document (the spec's
`hash_canonical`): `quick_hash(dict_to_yaml(doc))`. -/
def hash_canonical (sha1 : String → String) (doc : Fields) : String :=
  quick_hash sha1 (dict_to_yaml doc)

end Devexy

namespace Devexy

/-- Embeds `get_resource_name` from the legacy module
`devexy/utils/k8s.py`: the raw `metadata.name` value, falling back to
`quick_hash(dict_to_yaml(doc))` when it is `None` or absent. A
non-mapping `metadata` makes the `.get` attribute access raise. -/
def get_resource_name (sha1 : String → String) (doc : Fields) : Except PyErr Val :=
  match (doc.lookup "metadata").getD (.vobj .nil) with
  | .vobj m =>
      match m.lookup "name" with
      | none => .ok (.vstr (quick_hash sha1 (dict_to_yaml doc)))
      | some .vnull => .ok (.vstr (quick_hash sha1 (dict_to_yaml doc)))
      | some v => .ok v
  | _ => .error .attributeError

/-- Result of `subprocess.run` as captured by `devexy/utils/proc.py`:
exit code, stdout and stderr text. -/
structure CompletedProcess where
  returncode : Int
  stdout : String
  stderr : String
  deriving DecidableEq, Repr

/-- The payload of a raised `ToolError`
(`ToolError(result.returncode, args, result.stdout, result.stderr)`),
argv omitted. -/
structure ToolFailure where
  returncode : Int
  stdout : String
  stderr : String
  deriving DecidableEq, Repr

/-- Embeds `Tool.exec` from `devexy/tools/tool.py` with the default
`raise_on_error=True`: return stdout on exit 0, otherwise raise
`ToolError` carrying exit code, stdout and stderr. -/
def tool_exec (result : CompletedProcess) : Except ToolFailure String :=
  if result.returncode = 0 then .ok result.stdout
  else .error ⟨result.returncode, result.stdout, result.stderr⟩

/-- Embeds `Kubectl.apply` from `devexy/tools/kubectl.py`: on a
successful exit, a truthy (nonempty) stdout yields `False` when its
stripped text ends with `"unchanged"` and `True` otherwise, while an
empty stdout falls off the end of the function and returns `None`;
a non-zero exit propagates the `ToolError` raised by `Tool.exec`. -/
def kubectl_apply (result : CompletedProcess) : Except ToolFailure (Option Bool) := do
  let response ← tool_exec result
  if response ≠ "" then
    if endsWith (pyStrip response) "unchanged" then pure (some false)
    else pure (some true)
  else pure none

/-- State of one `Resource` (resource.py): the original and working
documents, the `_k8s_state` cache record, and the liveness of the two
background activities (monitor thread, port-forward child). -/
structure Resource where
  original : Fields
  doc : Fields
  k8sState : Fields
  monitoring : Bool
  forwarding : Bool
  deriving DecidableEq, Repr

/-- Embeds `Resource.__init__`: the working document is a deep copy of
the given one, the cache record is loaded best-effort (`cached = none`
models a missing, empty or corrupt file, which loads as the empty
record) and `key` is stamped into it; no background activity runs yet.
`dk`/`dn` are the default-kind/default-name constants. -/
def Resource.init (dk dn : String) (doc : Fields) (cached : Option Fields) :
    Except PyErr Resource := do
  let key ← get_key dk dn doc
  pure ⟨doc, doc, (cached.getD .nil).set "key" (.vstr key), false, false⟩

/-- Embeds `Resource.is_proxying`:
`bool(self._k8s_state.get("proxy_installed"))`. -/
def Resource.is_proxying (r : Resource) : Bool :=
  pyTruthy ((r.k8sState.lookup "proxy_installed").getD .vnull)

/-- Embeds `Resource.is_scalable`: `self.kind.lower() in SCALABLE_KINDS`
(`kind` is `get_kind(self._doc)`; it is a cached property, but no
operation of the class rewrites the `kind` key, so reading the current
working document is equivalent). -/
def Resource.is_scalable (dk : String) (r : Resource) : Bool :=
  SCALABLE_KINDS.contains (lowerStr (get_kind dk r.doc))

/-- Embeds `Resource.yaml`: `dict_to_yaml(self._doc)`. -/
def Resource.yaml (r : Resource) : String := dict_to_yaml r.doc

/-- Embeds `Resource.k8s_status`: `self._k8s_state.get("status") or {}`. -/
def Resource.k8s_status (r : Resource) : Val :=
  let v := (r.k8sState.lookup "status").getD .vnull
  if pyTruthy v then v else .vobj .nil

/-- Embeds the document mutation of `Resource.set_replicas`: ensure a
`spec` key exists, then assign `spec.replicas`. Assigning into a
non-mapping `spec` raises `TypeError` as in Python. -/
def set_replicas_doc (replicas : Val) (doc : Fields) : Except PyErr Fields :=
  let doc1 := if doc.hasKey "spec" then doc else doc.set "spec" (.vobj .nil)
  match doc1.lookup "spec" with
  | some (.vobj s) => .ok (doc1.set "spec" (.vobj (s.set "replicas" replicas)))
  | some _ => .error .typeError
  | none => .error .keyError

/-- Embeds `Resource.set_replicas(replicas)` without the optional
immediate apply (callers that pass `apply=True` are modelled by
composing with `Resource.apply`). -/
def Resource.set_replicas (replicas : Val) (r : Resource) : Except PyErr Resource := do
  let doc' ← set_replicas_doc replicas r.doc
  pure { r with doc := doc' }

/-- Embeds `Resource.apply` (resource.py:218): it unconditionally shells
out `kubectl apply` with the working document's canonical YAML and
returns `kubectl.apply`'s value, with any exception caught and turned
into `None`. It neither reads nor writes a `last_applied_hash` and
never touches the cache record. The third component is the list of
payloads sent to kubectl (always exactly one), as evidence of the
subprocess call. -/
def Resource.apply (cp : CompletedProcess) (r : Resource) :
    Resource × Option Bool × List String :=
  (r, (match kubectl_apply cp with | .ok v => v | .error _ => none), [r.yaml])

/-- Embeds one iteration of `Resource._monitor_state` (resource.py:196):
`current = none` models `kubectl.get_current_state` raising (logged,
loop continues). On success the `status` subobject is staged, then the
live first container is inspected; `proxy_installed` is true exactly
when its `name` equals `devexy-reverse-proxy` (Python `==`, false for
any non-string name), and `observed_at` is stamped with the current
time. A failure while inspecting the container (the inner
`try/except`) leaves only the staged `status` update. -/
def Resource.monitorStep (current : Option Fields) (now : String) (r : Resource) :
    Resource :=
  match current with
  | none => r
  | some cs =>
      let status := (cs.lookup "status").getD (.vobj .nil)
      let st1 := r.k8sState.set "status" status
      match get_first_container cs with
      | .error _ => { r with k8sState := st1 }
      | .ok c =>
          match (match c with
                 | some v => if pyTruthy v then v else .vobj .nil
                 | none => .vobj .nil) with
          | .vobj cf =>
              { r with
                k8sState :=
                  Fields.set "observed_at" (.vstr now)
                    (Fields.set "proxy_installed"
                      (.vbool (decide (cf.lookup "name" =
                        some (.vstr K8S_REVERSE_PROXY_CONTAINER_NAME)))) st1) }
          | _ => { r with k8sState := st1 }

/-- Embeds `Resource.start_forwarding` together with the body of the
forwarding thread `_start_forwarding_process`: a no-op when a forward
is already alive; an exception from `get_local_port` kills the thread
without starting a child; an absent (or zero, hence falsy) local port
is a warned no-op; otherwise the `kubectl port-forward` child is
launched and modelled as alive. -/
def Resource.start_forwarding (r : Resource) : Resource :=
  if r.forwarding then r
  else match get_local_port r.doc with
    | .error _ => r
    | .ok none => r
    | .ok (some n) => if n = 0 then r else { r with forwarding := true }

/-- Embeds `Resource.stop_forwarding`: terminate the child when alive,
otherwise a no-op. -/
def Resource.stop_forwarding (r : Resource) : Resource :=
  if r.forwarding then { r with forwarding := false } else r

/-- Embeds `Resource.enable_services`: only for scalable resources,
start monitoring when not yet monitoring, then start forwarding when
neither proxying nor already forwarding. -/
def Resource.enable_services (dk : String) (r : Resource) : Resource :=
  if !(r.is_scalable dk) then r
  else
    let r1 := if !r.monitoring then { r with monitoring := true } else r
    if !r1.is_proxying && !r1.forwarding then r1.start_forwarding else r1

/-- Embeds `Resource._get_container_port` (resource.py:334): the first
container's first `containerPort` via `int(...)`, defaulting to 80 when
there is no container or no ports; subscripting or converting
ill-typed values raises as in Python. -/
def Resource.get_container_port (r : Resource) : Except PyErr Int := do
  let c ← get_first_container r.doc
  match c with
  | some v =>
      if pyTruthy v then do
        let cf ← match v with
          | .vobj cf => Except.ok cf
          | _ => Except.error PyErr.attributeError
        let portsV := (cf.lookup "ports").getD .vnull
        let ports := if pyTruthy portsV then portsV else .varr .nil
        match ports with
        | .varr (.cons p _) => do
            let pf ← match p with
              | .vobj pf => Except.ok pf
              | _ => Except.error PyErr.attributeError
            pyInt ((pf.lookup "containerPort").getD .vnull)
        | .varr .nil => pure 80
        | _ => .error .typeError
      else pure 80
  | none => pure 80

/-- The embedded nginx configuration produced by
`get_reverse_proxy_container` in `devexy/k8s/utils.py`, with the two
ports substituted. -/
def nginx_config (container_port local_port : Int) : String :=
  "events \x7b\x7d\n" ++
  "http \x7b\n" ++
  "  server \x7b\n" ++
  "    listen " ++ intStr container_port ++ ";\n" ++
  "    location / \x7b\n" ++
  "      proxy_pass http://host.minikube.internal:" ++ intStr local_port ++ ";\n" ++
  "      proxy_set_header Host $host;\n" ++
  "      proxy_set_header X-Real-IP $remote_addr;\n" ++
  "      proxy_set_header X-Forwarded-For $proxy_add_x_forwarded_for;\n" ++
  "      proxy_set_header X-Forwarded-Proto $scheme;\n" ++
  "    \x7d\n" ++
  "  \x7d\n" ++
  "\x7d\n"

/-- Embeds `get_reverse_proxy_container` from `devexy/k8s/utils.py`:
the canned nginx reverse-proxy container document. -/
def get_reverse_proxy_container (local_port container_port : Int) : Val :=
  .vobj
    (.cons "name" (.vstr K8S_REVERSE_PROXY_CONTAINER_NAME)
    (.cons "image" (.vstr "nginx:latest")
    (.cons "ports" (.varr (.cons (.vobj (.cons "containerPort" (.vint container_port) .nil)) .nil))
    (.cons "command" (.varr (.cons (.vstr "sh") (.cons (.vstr "-c") .nil)))
    (.cons "args" (.varr (.cons
        (.vstr ("echo \x27" ++ nginx_config container_port local_port ++
                "\x27 > /etc/nginx/nginx.conf && nginx -g \x27daemon off;\x27"))
        .nil))
    .nil)))))

/-- Embeds the container assignment
`self._doc["spec"]["template"]["spec"]["containers"] = [c]` in
`_inject_reverse_proxy`, raising `KeyError`/`TypeError` exactly where
Python subscripting would. -/
def setContainersPath (doc : Fields) (c : Val) : Except PyErr Fields := do
  let specV ← match doc.lookup "spec" with
    | some v => Except.ok v
    | none => Except.error PyErr.keyError
  let specF ← match specV with
    | .vobj f => Except.ok f
    | _ => Except.error PyErr.typeError
  let tmplV ← match specF.lookup "template" with
    | some v => Except.ok v
    | none => Except.error PyErr.keyError
  let tmplF ← match tmplV with
    | .vobj f => Except.ok f
    | _ => Except.error PyErr.typeError
  let tspecV ← match tmplF.lookup "spec" with
    | some v => Except.ok v
    | none => Except.error PyErr.keyError
  let tspecF ← match tspecV with
    | .vobj f => Except.ok f
    | _ => Except.error PyErr.typeError
  pure (doc.set "spec" (.vobj (specF.set "template" (.vobj (tmplF.set "spec"
        (.vobj (tspecF.set "containers" (.varr (.cons c .nil)))))))))

/-- Embeds `Resource._inject_reverse_proxy` (resource.py:342): guarded
no-op for non-scalable resources and for a falsy local port; otherwise
replace the pod template's containers with the canned proxy container.
Exceptions (a malformed port annotation, a missing template path)
propagate to the caller, as the source has no handler here. -/
def Resource.inject_reverse_proxy (dk : String) (r : Resource) :
    Except PyErr Resource :=
  if !(r.is_scalable dk) then .ok r
  else do
    let lp ← get_local_port r.doc
    match lp with
    | none => .ok r
    | some local_port =>
        if local_port = 0 then .ok r
        else do
          let container_port ← r.get_container_port
          let c := get_reverse_proxy_container local_port container_port
          let doc' ← setContainersPath r.doc c
          pure { r with doc := doc' }

/-- Embeds `Resource._remove_reverse_proxy` (resource.py:365), which
catches every exception itself: read the working document's current
replica count, replace the working document by a deep copy of the
original, then `set_replicas(current, apply=True)`. A failure reading
the count aborts before any mutation; a failure assigning replicas
(non-mapping `spec` on the original) leaves the restored copy without
the count. The third component is the kubectl payload list. -/
def Resource.remove_reverse_proxy (cp : CompletedProcess) (r : Resource) :
    Resource × Bool × List String :=
  match get_replicas r.doc with
  | .error _ => (r, false, [])
  | .ok current =>
      match set_replicas_doc current r.original with
      | .error _ => ({ r with doc := r.original }, false, [])
      | .ok doc' =>
          let r' := { r with doc := doc' }
          let (r'', _res, calls) := r'.apply cp
          (r'', true, calls)

/-- Embeds `Resource.toggle_forwarding_mode` (resource.py:376): when
`is_proxying`, remove the proxy (restore original, re-apply); otherwise
inject the proxy container and apply. Either way `enable_services()`
runs afterwards. Nothing in this method stops an active port-forward,
and nothing writes `proxy_installed`. -/
def Resource.toggle_forwarding_mode (dk : String) (cp : CompletedProcess)
    (r : Resource) : Except PyErr (Resource × List String) :=
  if r.is_proxying then
    let (r1, _, calls) := r.remove_reverse_proxy cp
    .ok (r1.enable_services dk, calls)
  else do
    let r1 ← r.inject_reverse_proxy dk
    let (r2, _res, calls) := r1.apply cp
    pure (r2.enable_services dk, calls)

end Devexy

namespace Devexy

/-- Embeds the `kubectl.get_replicas(namespace=..., kind=..., name=...)`
call at inspect.py:290. The `Kubectl` class in
`devexy/tools/kubectl.py` defines no `get_replicas` method (the tests
in `tests/test_kubectl.py` pin one that returns the live count or
`None` on NotFound), so in the current source the attribute lookup
raises `AttributeError` unconditionally. -/
def kubectl_get_replicas : Except PyErr (Option Int) := .error .attributeError

/-- Embeds the body of the `try` block of the apply phase of
`apply_cluster_config` (inspect.py:288-294): query the existing replica
count, then force the working document to 0 replicas for a new
resource or to the existing count otherwise. -/
def inspect_try_body (existing : Except PyErr (Option Int)) (r : Resource) :
    Except PyErr Resource := do
  let er ← existing
  match er with
  | none => r.set_replicas (.vint 0)
  | some n => r.set_replicas (.vint n)

/-- Embeds the per-resource step of the apply phase of
`apply_cluster_config` (inspect.py:284-309): for a scalable resource
the replica-adjustment block runs under `try/except Exception`; because
`kubectl.get_replicas` does not exist, the block always lands in the
handler (a logged warning) without touching the working document. Then
`resource.apply()` runs unconditionally. -/
def inspect_apply_step (dk : String) (cp : CompletedProcess) (r : Resource) :
    Resource × Option Bool × List String :=
  let r1 := if r.is_scalable dk then
      (match inspect_try_body kubectl_get_replicas r with
       | .ok r' => r'
       | .error _ => r)
    else r
  r1.apply cp

/-- Embeds `_set_initial_replicas` from `devexy/commands/workon.py`:
for a scalable resource, fetch the last-applied configuration document
from the cluster and set the working replicas to its `spec.replicas`
(absent reads as `None`), or to 0 when there is no (truthy)
last-applied document. -/
def workon_set_initial_replicas (dk : String) (lastApplied : Option Val)
    (r : Resource) : Except PyErr Resource :=
  if !(r.is_scalable dk) then .ok r
  else
    let la := lastApplied.getD .vnull
    if pyTruthy la then
      match la with
      | .vobj f => do
          let v ← get_replicas f
          r.set_replicas v
      | _ => .error .attributeError
    else r.set_replicas (.vint 0)

/-- Numeric view of a value under Python comparison operators
(booleans coerce to 0/1); `none` for non-numeric values, whose
comparison raises `TypeError`. -/
def pyNum : Val → Option Int
  | .vint n => some n
  | .vbool b => some (if b then 1 else 0)
  | _ => none

/-- Python `a > b` on modelled values. -/
def pyGt (a b : Val) : Except PyErr Bool :=
  match pyNum a, pyNum b with
  | some x, some y => .ok (y < x)
  | _, _ => .error .typeError

/-- Python `status.get(key, 0)`. -/
def statusGet (f : Fields) (k : String) : Val := (f.lookup k).getD (.vint 0)

/-- Embeds `ClusterTable.get_status` from `devexy/commands/workon.py`
(lines 54-81): the derived status text of a resource from its cached
status record, in the source's decision order. The `.get` attribute
access on a truthy non-mapping status raises. -/
def ClusterTable.get_status (r : Resource) : Except PyErr String := do
  let sF ← match r.k8s_status with
    | .vobj f => Except.ok f
    | _ => Except.error PyErr.attributeError
  let unavailable_replicas := statusGet sF "unavailableReplicas"
  let available_replicas := statusGet sF "availableReplicas"
  let current_replicas := statusGet sF "currentReplicas"
  let ready_replicas := statusGet sF "readyReplicas"
  let gt ← pyGt current_replicas ready_replicas
  if gt then pure "starting"
  else if pyTruthy available_replicas then
    pure (if r.is_proxying then "☸ -> 💻"
          else if r.forwarding then "💻 -> ☸"
          else "running")
  else if pyTruthy unavailable_replicas && !(pyTruthy available_replicas) then
    pure "unavailable"
  else if !(pyTruthy current_replicas) then pure "stopped"
  else pure "unknown"

/-- The status-text decision procedure exactly as the specification
words it (§4.7), over integer fields with missing fields read as 0;
stated independently of `ClusterTable.get_status` so the two can be
compared. -/
def specStatusText (proxying forwarding : Bool)
    (current ready avail unav : Int) : String :=
  if current > ready then "starting"
  else if avail > 0 then
    (if proxying then "☸ -> 💻" else if forwarding then "💻 -> ☸" else "running")
  else if unav > 0 ∧ avail = 0 then "unavailable"
  else if current = 0 then "stopped"
  else "unknown"

end Devexy

namespace Devexy

/-- Split a character stream at newlines (the stream always yields one
more line than it has newlines; a trailing newline yields a final empty
line). -/
def splitNL : List Char → List (List Char)
  | [] => [[]]
  | c :: rest =>
      if c = '\n' then [] :: splitNL rest
      else match splitNL rest with
        | l :: ls => (c :: l) :: ls
        | [] => [[c]]

/-- Lex one physical line into indentation width and content. -/
def lexLine (cs : List Char) : Line :=
  ((cs.takeWhile (· = ' ')).length, cs.dropWhile (· = ' '))

/-- Resolution of a plain scalar, following the PyYAML resolver on the
modelled fragment: the keywords `null`/`true`/`false`, the flow forms
`\x7b\x7d` and `[]`, optionally signed integers (with YAML 1.1
underscores), and strings otherwise. -/
def resolveScalar (cs : List Char) : Val :=
  if cs = "null".data then .vnull
  else if cs = "true".data then .vbool true
  else if cs = "false".data then .vbool false
  else if cs = ['\x7b', '\x7d'] then .vobj .nil
  else if cs = ['[', ']'] then .varr .nil
  else match cs with
    | '-' :: rest => if usOk rest then .vint (-(digitsVal rest : Int)) else .vstr (String.mk cs)
    | '+' :: rest => if usOk rest then .vint (digitsVal rest) else .vstr (String.mk cs)
    | _ => if usOk cs then .vint (digitsVal cs) else .vstr (String.mk cs)

/-- Does a content line open a sequence item (`"- "`)? -/
def isDashed : List Char → Bool
  | '-' :: ' ' :: _ => true
  | _ => false

/-- Size of a lexed line list: total content length plus one per line.
Parsing consumes lines (and the compacted first line of a block
sequence item re-enters shorter by the dropped dash), so this measure
decreases through the parser. -/
def lineMeasure (ls : List Line) : Nat :=
  ls.foldr (fun l a => l.2.length + 1 + a) 0

mutual
/-- Parse consecutive mapping entries at indent `i`, stopping at the
end of input, at a line of different indent, at an empty line, or at a
sequence item. Models `yaml.safe_load` on the block output the encoder
produces. -/
def parseFields (i : Nat) (ls : List Line) :
    Option (Fields × {rs : List Line // lineMeasure rs ≤ lineMeasure ls}) :=
  match ls with
  | [] => some (.nil, ⟨[], Nat.le_refl _⟩)
  | (j, c) :: tl =>
      if j ≠ i ∨ c = [] ∨ isDashed c then
        some (.nil, ⟨(j, c) :: tl, Nat.le_refl _⟩)
      else
        let key := c.takeWhile (· ≠ ':')
        match c.drop key.length with
        | [':'] =>
            match parseChild i tl with
            | none => none
            | some (v, ⟨rs, hrs⟩) =>
                match parseFields i rs with
                | none => none
                | some (f, ⟨rs', hrs'⟩) =>
                    some (.cons (String.mk key) v f,
                      ⟨rs', by
                        have h1 : lineMeasure ((j, c) :: tl) = c.length + 1 + lineMeasure tl := by
                          simp [lineMeasure]
                        omega⟩)
        | ':' :: ' ' :: sc =>
            match parseFields i tl with
            | none => none
            | some (f, ⟨rs, hrs⟩) =>
                some (.cons (String.mk key) (resolveScalar sc) f,
                  ⟨rs, by
                    have h1 : lineMeasure ((j, c) :: tl) = c.length + 1 + lineMeasure tl := by
                      simp [lineMeasure]
                    omega⟩)
        | _ => none
  termination_by (lineMeasure ls, 0)
  decreasing_by
    all_goals simp_wf
    all_goals first
      | (apply Prod.Lex.left
         simp only [lineMeasure, List.foldr_cons, List.length_cons] at *
         omega)
      | (apply Prod.Lex.right; omega)

/-- Parse the block child of a mapping entry whose key line ended at
the colon: a sequence at the key's indent, or a nested mapping two
columns deeper. -/
def parseChild (i : Nat) (ls : List Line) :
    Option (Val × {rs : List Line // lineMeasure rs ≤ lineMeasure ls}) :=
  match ls with
  | [] => none
  | (j, c) :: tl =>
      if j = i ∧ isDashed c then
        match parseElems i ((j, c) :: tl) with
        | none => none
        | some (e, rs) => some (.varr e, rs)
      else if j = i + 2 then
        match parseFields (i + 2) ((j, c) :: tl) with
        | none => none
        | some (f, rs) => some (.vobj f, rs)
      else none
  termination_by (lineMeasure ls, 1)
  decreasing_by
    all_goals simp_wf
    all_goals first
      | (apply Prod.Lex.left
         simp only [lineMeasure, List.foldr_cons, List.length_cons] at *
         omega)
      | (apply Prod.Lex.right; omega)

/-- Parse consecutive sequence items at indent `i`. A dashed line whose
remainder is itself dashed or key-like re-enters the parser as a
content line two columns deeper (undoing the encoder's compaction);
otherwise the remainder is an inline scalar. -/
def parseElems (i : Nat) (ls : List Line) :
    Option (Elems × {rs : List Line // lineMeasure rs ≤ lineMeasure ls}) :=
  match ls with
  | [] => some (.nil, ⟨[], Nat.le_refl _⟩)
  | (j, '-' :: ' ' :: rest) :: tl =>
      if j = i then
        if isDashed rest then
          match parseElems (i + 2) ((i + 2, rest) :: tl) with
          | none => none
          | some (e, ⟨rs, hrs⟩) =>
              match parseElems i rs with
              | none => none
              | some (es, ⟨rs', hrs'⟩) =>
                  some (.cons (.varr e) es,
                    ⟨rs', by
                      have h1 : lineMeasure ((j, '-' :: ' ' :: rest) :: tl) =
                          rest.length + 2 + 1 + lineMeasure tl := by
                        simp [lineMeasure]
                      have h2 : lineMeasure ((i + 2, rest) :: tl) =
                          rest.length + 1 + lineMeasure tl := by
                        simp [lineMeasure]
                      omega⟩)
        else if rest.any (· = ':') then
          match parseFields (i + 2) ((i + 2, rest) :: tl) with
          | none => none
          | some (f, ⟨rs, hrs⟩) =>
              match parseElems i rs with
              | none => none
              | some (es, ⟨rs', hrs'⟩) =>
                  some (.cons (.vobj f) es,
                    ⟨rs', by
                      have h1 : lineMeasure ((j, '-' :: ' ' :: rest) :: tl) =
                          rest.length + 2 + 1 + lineMeasure tl := by
                        simp [lineMeasure]
                      have h2 : lineMeasure ((i + 2, rest) :: tl) =
                          rest.length + 1 + lineMeasure tl := by
                        simp [lineMeasure]
                      omega⟩)
        else
          match parseElems i tl with
          | none => none
          | some (es, ⟨rs, hrs⟩) =>
              some (.cons (resolveScalar rest) es,
                ⟨rs, by
                  have h1 : lineMeasure ((j, '-' :: ' ' :: rest) :: tl) =
                      rest.length + 2 + 1 + lineMeasure tl := by
                    simp [lineMeasure]
                  omega⟩)
      else some (.nil, ⟨(j, '-' :: ' ' :: rest) :: tl, Nat.le_refl _⟩)
  | l :: tl => some (.nil, ⟨l :: tl, Nat.le_refl _⟩)
  termination_by (lineMeasure ls, 0)
  decreasing_by
    all_goals simp_wf
    all_goals first
      | (apply Prod.Lex.left
         simp only [lineMeasure, List.foldr_cons, List.length_cons] at *
         omega)
      | (apply Prod.Lex.right; omega)
end

/-- Embeds `yaml.safe_load` on a single canonical mapping document (the
decode direction of the round-trip): lex the physical lines, parse the
top-level mapping at indent 0, and require only blank trailing lines. -/
def yaml_safe_load_doc (s : String) : Option Fields :=
  let ls := (splitNL s.data).map lexLine
  match ls with
  | (0, c) :: _ =>
      if c = ['\x7b', '\x7d'] then
        (if ls.tail.all (fun l => l.2 = []) then some .nil else none)
      else
        match parseFields 0 ls with
        | some (f, ⟨rs, _⟩) =>
            if rs.all (fun l => l.2 = []) && !(f = .nil) then some f else none
        | none => none
  | _ => none

/-- Characters allowed in the plain (unquoted) scalar fragment. -/
def plainChar (c : Char) : Bool :=
  c.isAlpha || c.isDigit || c = '-' || c = '_' || c = '.' || c = '/'

/-- Plain words the YAML 1.1 resolver would read as booleans or null;
the well-formed fragment excludes them from string scalars. -/
def scalarBlacklist : List String :=
  ["true", "True", "TRUE", "false", "False", "FALSE",
   "yes", "Yes", "YES", "no", "No", "NO",
   "on", "On", "ON", "off", "Off", "OFF",
   "y", "Y", "n", "N", "null", "Null", "NULL"]

/-- A string scalar (or key) the encoder may emit plain and the
resolver reads back as the same string: letter-led, drawn from the
plain character set, and not a resolver keyword. -/
def plainStr (s : String) : Bool :=
  (match s.data with | c :: _ => c.isAlpha | [] => false) &&
  s.data.all plainChar && !(scalarBlacklist.contains s)

/-- No key occurs twice (Python dicts cannot hold duplicate keys). -/
def keysFresh : Fields → Bool
  | .nil => true
  | .cons k _ t => !(t.hasKey k) && keysFresh t

mutual
/-- The well-formed fragment of the value domain on which the canonical
encoding round-trips: plain string scalars and duplicate-free mapping
keys, recursively. -/
def wfV : Val → Bool
  | .vstr s => plainStr s
  | .vint _ => true
  | .vbool _ => true
  | .vnull => true
  | .varr e => wfE e
  | .vobj f => keysFresh f && wfF f

/-- Sequence part of the well-formedness predicate. -/
def wfE : Elems → Bool
  | .nil => true
  | .cons v t => wfV v && wfE t

/-- Mapping part of the well-formedness predicate: plain keys and
well-formed values. -/
def wfF : Fields → Bool
  | .nil => true
  | .cons k v t => plainStr k && wfV v && wfF t
end

/-- Removal of one occurrence of a binding from a field list (the
mapping analogue of list-element removal, used to state mapping
equality up to entry order). -/
inductive FieldsRemove : Fields → String → Val → Fields → Prop
  | head : FieldsRemove (.cons k v t) k v t
  | tail : FieldsRemove t k v t' → FieldsRemove (.cons k' v' t) k v (.cons k' v' t')

mutual
/-- Logical-content equality of documents: scalars literally equal,
sequences pointwise equal, mappings equal as key–value multisets. On
duplicate-free keys (every Python dict) this is exactly Python `==` of
the parsed documents, restricted to the YAML data model (no numeric
coercion across types). -/
inductive EquivV : Val → Val → Prop
  | str : EquivV (.vstr s) (.vstr s)
  | int : EquivV (.vint n) (.vint n)
  | bool : EquivV (.vbool b) (.vbool b)
  | null : EquivV .vnull .vnull
  | arr : EquivE a b → EquivV (.varr a) (.varr b)
  | obj : EquivF a b → EquivV (.vobj a) (.vobj b)

/-- Pointwise logical equality of sequences. -/
inductive EquivE : Elems → Elems → Prop
  | nil : EquivE .nil .nil
  | cons : EquivV v w → EquivE t u → EquivE (.cons v t) (.cons w u)

/-- Multiset logical equality of mappings: each entry of the left list
matches a removable entry of the right list with a logically equal
value. -/
inductive EquivF : Fields → Fields → Prop
  | nil : EquivF .nil .nil
  | cons : FieldsRemove g k w g' → EquivV v w → EquivF t g' → EquivF (.cons k v t) g
end

end Devexy

namespace Devexy

/-- Lookup inside the `spec` mapping of a document (`none` when `spec`
is absent or not a mapping); used to state which parts of a document an
operation may change. -/
def specLookup (doc : Fields) (k : String) : Option Val :=
  match doc.lookup "spec" with
  | some (.vobj s) => s.lookup k
  | _ => none

/-- Subtype-free view of `parseFields`. -/
def parseFieldsW (i : Nat) (ls : List Line) : Option (Fields × List Line) :=
  (parseFields i ls).map (fun p => (p.1, p.2.val))

/-- Subtype-free view of `parseElems`. -/
def parseElemsW (i : Nat) (ls : List Line) : Option (Elems × List Line) :=
  (parseElems i ls).map (fun p => (p.1, p.2.val))

/-- Subtype-free view of `parseChild`. -/
def parseChildW (i : Nat) (ls : List Line) : Option (Val × List Line) :=
  (parseChild i ls).map (fun p => (p.1, p.2.val))

/-- Continuation lines that end a mapping block at indent `i`: nothing,
a line of smaller indent, or a blank line. -/
def restOkF (i : Nat) : List Line → Prop
  | [] => True
  | (j, c) :: _ => j < i ∨ c = []

/-- Continuation lines that end a sequence block at indent `i`: nothing,
a line of smaller indent, a blank line, or a non-item line at the same
indent (the next mapping key). -/
def restOkE (i : Nat) : List Line → Prop
  | [] => True
  | (j, c) :: _ => j < i ∨ c = [] ∨ (j = i ∧ isDashed c = false)

/-- Emitted lines are physical: nonempty content that neither starts
with a space nor contains a newline, so lexing inverts rendering. -/
def goodLines (ls : List Line) : Prop :=
  ∀ l ∈ ls, l.2 ≠ [] ∧ (∀ c ∈ l.2.head?, c ≠ ' ') ∧ '\n' ∉ l.2

/-- The child block of a mapping entry as `emitF` lays it out: a
sequence value at the key's own indent, any other (mapping) value two
columns deeper. -/
def emitChild (i : Nat) : Val → List Line
  | .varr e => emitE i e
  | v => emitV (i + 2) v

/-- Keys in nondecreasing order (the shape `sortF` produces). -/
def sortedF : Fields → Bool
  | .nil => true
  | .cons _ _ .nil => true
  | .cons k _ (.cons k' v' t) => decide (k ≤ k') && sortedF (.cons k' v' t)

mutual
/-- Fuel-bounded decision procedure for `EquivV` (structural in the
fuel, so concrete instances evaluate inside the kernel). -/
def eqvV : Nat → Val → Val → Bool
  | 0, _, _ => false
  | _ + 1, .vstr s, .vstr t => decide (s = t)
  | _ + 1, .vint m, .vint n => decide (m = n)
  | _ + 1, .vbool a, .vbool b => decide (a = b)
  | _ + 1, .vnull, .vnull => true
  | n + 1, .varr a, .varr b => eqvE n a b
  | n + 1, .vobj f, .vobj g => eqvF n f g
  | _ + 1, _, _ => false

/-- Fuel-bounded decision procedure for `EquivE`. -/
def eqvE : Nat → Elems → Elems → Bool
  | 0, _, _ => false
  | _ + 1, .nil, .nil => true
  | n + 1, .cons v t, .cons w u => eqvV n v w && eqvE n t u
  | _ + 1, _, _ => false

/-- Fuel-bounded decision procedure for `EquivF`. -/
def eqvF : Nat → Fields → Fields → Bool
  | 0, _, _ => false
  | _ + 1, .nil, .nil => true
  | _ + 1, .nil, .cons _ _ _ => false
  | n + 1, .cons k v t, g =>
      match removeMatch n k v g with
      | some g2 => eqvF n t g2
      | none => false

/-- Find and remove a binding of key `k` whose value matches `v` up to
`eqvV`, returning the remaining fields. -/
def removeMatch : Nat → String → Val → Fields → Option Fields
  | 0, _, _, _ => none
  | _ + 1, _, _, .nil => none
  | n + 1, k, v, .cons k2 v2 t =>
      if decide (k2 = k) && eqvV n v v2 then some t
      else match removeMatch n k v t with
        | some t2 => some (.cons k2 v2 t2)
        | none => none
end

/-- The legacy default kind from `devexy/utils/k8s.py`
(`DEFAULT_RESOURCE_KIND = "__unspecified_kind__"`); it also serves as a
stand-in for the `K8S_DEFAULT_RESOURCE_KIND` constant of the missing
`devexy/constants.py` wherever theorems do not quantify over it. -/
def DEFAULT_RESOURCE_KIND : String := "__unspecified_kind__"

/-- The deployment document used by `tests/test_resource.py`
(`test_doc`): name `test-deploy` in `test-ns`, local-port annotation
8080, replicas 3, one container with `containerPort` 80. The image
string is simplified to a colon-free name, which no claim depends on. -/
def testDeployment : Fields :=
  .cons "apiVersion" (.vstr "apps/v1")
  (.cons "kind" (.vstr "Deployment")
  (.cons "metadata" (.vobj
      (.cons "name" (.vstr "test-deploy")
      (.cons "namespace" (.vstr "test-ns")
      (.cons "annotations" (.vobj (.cons "devexy/local-port" (.vint 8080) .nil))
      .nil))))
  (.cons "spec" (.vobj
      (.cons "replicas" (.vint 3)
      (.cons "template" (.vobj
          (.cons "spec" (.vobj
              (.cons "containers" (.varr (.cons (.vobj
                  (.cons "name" (.vstr "test-api")
                  (.cons "image" (.vstr "test-api")
                  (.cons "ports" (.varr (.cons
                      (.vobj (.cons "containerPort" (.vint 80) .nil)) .nil))
                  .nil))))
                .nil))
              .nil))
          .nil))
      .nil)))
  .nil)))

/-- The resource built on `testDeployment` with an empty cache record
(only the stamped `key`), no poller and no port-forward child. -/
def r0 : Resource :=
  ⟨testDeployment, testDeployment,
   .cons "key" (.vstr "test-ns/deployment/test-deploy") .nil, false, false⟩

/-- The same resource with a live port-forward child. -/
def rFwd : Resource :=
  ⟨testDeployment, testDeployment,
   .cons "key" (.vstr "test-ns/deployment/test-deploy") .nil, false, true⟩

/-- A successful `kubectl apply` whose stdout reports a change. -/
def cpChanged : CompletedProcess :=
  ⟨0, "deployment.apps/test-deploy configured\n", ""⟩

/-- A successful `kubectl apply` whose stdout reports no change. -/
def cpUnchanged : CompletedProcess :=
  ⟨0, "deployment.apps/test-deploy unchanged\n", ""⟩

/-- A live cluster state whose pod template's first container is the
installed reverse proxy, with a running status subobject. -/
def clusterProxyState : Fields :=
  .cons "spec" (.vobj
      (.cons "template" (.vobj
          (.cons "spec" (.vobj
              (.cons "containers" (.varr (.cons (.vobj
                  (.cons "name" (.vstr "devexy-reverse-proxy") .nil)) .nil))
              .nil))
          .nil))
      .nil))
  (.cons "status" (.vobj
      (.cons "availableReplicas" (.vint 1)
      (.cons "readyReplicas" (.vint 1)
      (.cons "currentReplicas" (.vint 1)
      .nil))))
  .nil)

/-- A document whose `devexy/local-port` annotation is a malformed
integer string. -/
def malformedPortDoc : Fields :=
  .cons "kind" (.vstr "Deployment")
  (.cons "metadata" (.vobj
      (.cons "name" (.vstr "bad-port")
      (.cons "annotations" (.vobj (.cons "devexy/local-port" (.vstr "abc") .nil))
      .nil)))
  .nil)

/-- A scalable document with no `metadata.name`, replicas 1. -/
def namelessDoc1 : Fields :=
  .cons "kind" (.vstr "Deployment")
  (.cons "metadata" (.vobj (.cons "namespace" (.vstr "test-ns") .nil))
  (.cons "spec" (.vobj (.cons "replicas" (.vint 1) .nil))
  .nil))

/-- A different scalable document with no `metadata.name`, replicas 2. -/
def namelessDoc2 : Fields :=
  .cons "kind" (.vstr "Deployment")
  (.cons "metadata" (.vobj (.cons "namespace" (.vstr "test-ns") .nil))
  (.cons "spec" (.vobj (.cons "replicas" (.vint 2) .nil))
  .nil))

/-- The spec scenario's overlay document: Deployment `web` in namespace
`app` with `spec.replicas: 3`. -/
def webDoc3 : Fields :=
  .cons "kind" (.vstr "Deployment")
  (.cons "metadata" (.vobj
      (.cons "name" (.vstr "web")
      (.cons "namespace" (.vstr "app")
      .nil)))
  (.cons "spec" (.vobj (.cons "replicas" (.vint 3) .nil))
  .nil))

/-- The resource built on `webDoc3` with an empty cache record. -/
def rWeb : Resource :=
  ⟨webDoc3, webDoc3, .cons "key" (.vstr "app/deployment/web") .nil, false, false⟩

/-- A last-applied-configuration document for `app/web` recording
`spec.replicas: 2` (the cluster's current intent in the spec's
preserve-replicas scenario). -/
def lastApplied2 : Fields :=
  .cons "kind" (.vstr "Deployment")
  (.cons "metadata" (.vobj
      (.cons "name" (.vstr "web")
      (.cons "namespace" (.vstr "app")
      .nil)))
  (.cons "spec" (.vobj (.cons "replicas" (.vint 2) .nil))
  .nil))

/-- A well-formed document inside the round-trip fragment, with
deliberately unsorted keys at two levels. -/
def wfSampleDoc : Fields :=
  .cons "metadata" (.vobj
      (.cons "namespace" (.vstr "app")
      (.cons "name" (.vstr "web")
      .nil)))
  (.cons "kind" (.vstr "Deployment")
  (.cons "spec" (.vobj
      (.cons "template" (.vobj
          (.cons "spec" (.vobj
              (.cons "containers" (.varr (.cons (.vobj
                  (.cons "name" (.vstr "api")
                  (.cons "image" (.vstr "nginx")
                  (.cons "ports" (.varr (.cons
                      (.vobj (.cons "containerPort" (.vint 80) .nil)) .nil))
                  .nil))))
                .nil))
              .nil))
          .nil))
      (.cons "replicas" (.vint 3)
      .nil)))
  .nil))

/-- The same logical document as `wfSampleDoc` with mapping entries in
a different insertion order at every level. -/
def wfSampleDocPerm : Fields :=
  .cons "kind" (.vstr "Deployment")
  (.cons "spec" (.vobj
      (.cons "replicas" (.vint 3)
      (.cons "template" (.vobj
          (.cons "spec" (.vobj
              (.cons "containers" (.varr (.cons (.vobj
                  (.cons "image" (.vstr "nginx")
                  (.cons "ports" (.varr (.cons
                      (.vobj (.cons "containerPort" (.vint 80) .nil)) .nil))
                  (.cons "name" (.vstr "api")
                  .nil))))
                .nil))
              .nil))
          .nil))
      .nil)))
  (.cons "metadata" (.vobj
      (.cons "name" (.vstr "web")
      (.cons "namespace" (.vstr "app")
      .nil)))
  .nil))

end Devexy

namespace Devexy

/-- A resource whose cache record holds a running status (1 available,
1 ready, 1 current) with a live port-forward child and no proxy. -/
def rStatus : Resource :=
  ⟨webDoc3, webDoc3,
   .cons "status" (.vobj
      (.cons "availableReplicas" (.vint 1)
      (.cons "readyReplicas" (.vint 1)
      (.cons "currentReplicas" (.vint 1)
      .nil)))) .nil,
   false, true⟩

/-- The result of toggling `r0` (no active forward) into reverse mode. -/
def c10T : Resource × List String :=
  match r0.toggle_forwarding_mode DEFAULT_RESOURCE_KIND cpChanged with
  | .ok p => p
  | .error _ => (r0, [])

/-- The result of toggling `rFwd` (active forward) into reverse mode. -/
def c3T : Resource × List String :=
  match rFwd.toggle_forwarding_mode DEFAULT_RESOURCE_KIND cpChanged with
  | .ok p => p
  | .error _ => (rFwd, [])

/-- The toggled resource after the status poller observes the installed
proxy container in the cluster. -/
def c3Observed : Resource :=
  c3T.1.monitorStep (some clusterProxyState) "2026-10-12T00:00:00+00:00"

/-- The working document of `testDeployment` after proxy injection with
local port 8080 and container port 80. -/
def c3InjDoc : Fields :=
  match setContainersPath testDeployment (get_reverse_proxy_container 8080 80) with
  | .ok d => d
  | .error _ => testDeployment

end Devexy


deriving instance DecidableEq for Except

namespace Devexy

/-- Looking up the key just set yields the new value. -/
theorem Fields.lookup_set_self (k : String) (v : Val) :
    (f : Fields) → (f.set k v).lookup k = some v
  | .nil => by simp [Fields.set, Fields.lookup]
  | .cons k' v' t => by
      by_cases h : k' = k
      · simp [Fields.set, Fields.lookup, h]
      · simp [Fields.set, Fields.lookup, h, Fields.lookup_set_self k v t]

/-- Setting one key leaves every other key's binding unchanged. -/
theorem Fields.lookup_set_ne {k k' : String} (v : Val) (h : k' ≠ k) :
    (f : Fields) → (f.set k v).lookup k' = f.lookup k'
  | .nil => by simp [Fields.set, Fields.lookup, Ne.symm h]
  | .cons k'' v'' t => by
      by_cases h2 : k'' = k
      · subst h2
        simp [Fields.set, Fields.lookup, Ne.symm h]
      · by_cases h3 : k'' = k'
        · subst h3
          simp [Fields.set, Fields.lookup, h, h2]
        · simp [Fields.set, Fields.lookup, h2, h3, Fields.lookup_set_ne v h t]

/-- Membership test agrees with lookup. -/
theorem Fields.hasKey_iff_lookup (k : String) :
    (f : Fields) → (f.hasKey k = true ↔ ∃ v, f.lookup k = some v)
  | .nil => by simp [Fields.hasKey, Fields.lookup]
  | .cons k' v' t => by
      by_cases h : k' = k
      · simp [Fields.hasKey, Fields.lookup, h]
      · simp [Fields.hasKey, Fields.lookup, h, Fields.hasKey_iff_lookup k t]

/-- C8 counterexample: on a document whose `devexy/local-port`
annotation is the malformed string `"abc"`, the accessor raises
`ValueError`; it does not return the port as absent. -/
theorem c8_counterexample :
    get_local_port malformedPortDoc = .error .valueError ∧
    (Except.error PyErr.valueError : Except PyErr (Option Int)) ≠ .ok none := by
  exact ⟨rfl, by decide⟩

/-- C8 (amended): for a present, non-null string annotation value the
accessor is exactly Python `int(...)`: a well-formed integer string
yields the port and a malformed one raises `ValueError` — there is no
handler that turns the failure into an absent port. -/
theorem c8_local_port_is_int_parse (doc anns : Fields) (s : String)
    (h1 : get_annotations doc = .ok anns)
    (h2 : anns.lookup LOCAL_PORT_ANNOTATION = some (.vstr s)) :
    get_local_port doc = (pyIntOfStr s).map some := by
  unfold get_local_port
  rw [h1]
  cases h : pyIntOfStr s with
  | ok n => simp [Bind.bind, Except.bind, h2, pyInt, h, Except.map, pure, Except.pure]
  | error e => simp [Bind.bind, Except.bind, h2, pyInt, h, Except.map]

/-- C8 witness: the amended theorem evaluated on the malformed
document. -/
theorem c8_local_port_is_int_parse_witness :
    get_local_port malformedPortDoc = (pyIntOfStr "abc").map some :=
  c8_local_port_is_int_parse malformedPortDoc
    (.cons "devexy/local-port" (.vstr "abc") .nil) "abc" rfl rfl

/-- C5 counterexample: a zero-exit `kubectl apply` with empty stdout —
whose stdout does not end with `"unchanged"` — yields the Python value
`None`, which is neither the `Changed` (`True`) nor the `Unchanged`
(`False`) outcome. -/
theorem c5_counterexample :
    kubectl_apply ⟨0, "", "err"⟩ = .ok none ∧
    endsWith (pyStrip "") "unchanged" = false ∧
    (Except.ok (none : Option Bool) : Except ToolFailure (Option Bool)) ≠ .ok (some true) ∧
    (Except.ok (none : Option Bool) : Except ToolFailure (Option Bool)) ≠ .ok (some false) := by
  refine ⟨rfl, by decide, by decide, by decide⟩

/-- C5 (amended): on exit 0 with nonempty stdout the outcome is
`Changed` exactly when the stripped stdout does not end with
`"unchanged"`; on exit 0 with empty stdout the function returns `None`
(neither outcome — callers tally it as skipped); on non-zero exit a
`ToolError` carrying exit code, stdout and stderr is raised. -/
theorem c5_apply_outcome (cp : CompletedProcess) :
    (cp.returncode = 0 → cp.stdout ≠ "" →
        kubectl_apply cp = .ok (some (!(endsWith (pyStrip cp.stdout) "unchanged")))) ∧
    (cp.returncode = 0 → cp.stdout = "" → kubectl_apply cp = .ok none) ∧
    (cp.returncode ≠ 0 →
        kubectl_apply cp = .error ⟨cp.returncode, cp.stdout, cp.stderr⟩) := by
  refine ⟨?_, ?_, ?_⟩
  · intro h0 hne
    simp only [kubectl_apply, tool_exec, h0, if_pos rfl, Bind.bind, Except.bind, hne,
      if_pos, ite_not]
    by_cases h : endsWith (pyStrip cp.stdout) "unchanged" = true
    · simp [h, pure, Except.pure]
    · simp only [Bool.not_eq_true] at h
      simp [h, pure, Except.pure]
  · intro h0 he
    simp [kubectl_apply, tool_exec, h0, he, Bind.bind, Except.bind, pure, Except.pure]
  · intro h0
    simp [kubectl_apply, tool_exec, h0, Bind.bind, Except.bind]

/-- C5 witness: the amended theorem evaluated on an `unchanged` apply
and on a failing apply. -/
theorem c5_apply_outcome_witness :
    kubectl_apply cpUnchanged =
      .ok (some (!(endsWith (pyStrip cpUnchanged.stdout) "unchanged"))) ∧
    kubectl_apply ⟨1, "", "boom"⟩ = .error ⟨1, "", "boom"⟩ :=
  ⟨(c5_apply_outcome cpUnchanged).1 rfl (by decide),
   (c5_apply_outcome ⟨1, "", "boom"⟩).2.2 (by decide)⟩

end Devexy

namespace Devexy

/-- Inversion for `pyDict`: success means the value was a mapping. -/
theorem pyDict_ok {x : Val} {f : Fields} (h : pyDict x = .ok f) : x = .vobj f := by
  cases x <;> simp [pyDict] at h <;> simp [h]

/-- C7 counterexample: two nameless documents with different content
(replicas 1 vs 2) receive identical identity keys, because the live
accessor `get_name` falls back to the fixed module constant
`K8S_DEFAULT_RESOURCE_NAME` (written here as its stand-in value; the
companion theorem quantifies over every possible value), not to a
content hash. -/
theorem c7_counterexample :
    namelessDoc1 ≠ namelessDoc2 ∧
    get_key DEFAULT_RESOURCE_KIND "__unspecified_name__" namelessDoc1 =
      get_key DEFAULT_RESOURCE_KIND "__unspecified_name__" namelessDoc2 := by
  exact ⟨by decide, rfl⟩

/-- C7 (amended): for a document missing `metadata.name`, the live
`get_name` (used for the Resource identity key and hence the cache
filename `quick_hash(key) + ".json"`) returns the fixed default
constant whatever its value is, so any two nameless documents agreeing
on kind and namespace share one key and one cache filename; only the
legacy `get_resource_name` of `devexy/utils/k8s.py` falls back to the
stable hash of the canonical YAML. -/
theorem c7_name_fallback (dk dn : String) (sha1 : String → String)
    (d e md me : Fields)
    (hd : get_metadata d = .ok md) (hnd : md.lookup "name" = none)
    (he : get_metadata e = .ok me) (hne : me.lookup "name" = none)
    (hkind : get_kind dk d = get_kind dk e)
    (hns : get_namespace K8S_DEFAULT_NAMESPACE d = get_namespace K8S_DEFAULT_NAMESPACE e) :
    get_name dn d = .ok dn ∧
    get_resource_name sha1 d = .ok (.vstr (quick_hash sha1 (dict_to_yaml d))) ∧
    get_key dk dn d = get_key dk dn e := by
  have pd : (d.lookup "metadata").getD (.vobj .nil) = .vobj md := by
    unfold get_metadata at hd
    exact pyDict_ok hd
  have pe : (e.lookup "metadata").getD (.vobj .nil) = .vobj me := by
    unfold get_metadata at he
    exact pyDict_ok he
  have hname : get_name dn d = .ok dn := by
    unfold get_name
    rw [hd]
    simp [Bind.bind, Except.bind, hnd, pure, Except.pure]
  have hnamee : get_name dn e = .ok dn := by
    unfold get_name
    rw [he]
    simp [Bind.bind, Except.bind, hne, pure, Except.pure]
  refine ⟨hname, ?_, ?_⟩
  · unfold get_resource_name
    rw [pd]
    simp [hnd]
  · unfold get_key
    rw [hname, hnamee]
    cases hx : get_namespace K8S_DEFAULT_NAMESPACE d with
    | error ex =>
        exfalso
        unfold get_namespace at hx
        rw [hd] at hx
        cases hmd : md.lookup "namespace" <;>
          simp [Bind.bind, Except.bind, hmd, pure, Except.pure] at hx
    | ok nsd =>
        rw [hx] at hns
        rw [← hns]
        simp [Bind.bind, Except.bind, pure, Except.pure, hkind]

/-- C7 witness: the amended theorem evaluated on the two concrete
nameless documents with the identity function as stand-in digest. -/
theorem c7_name_fallback_witness :
    get_name "__unspecified_name__" namelessDoc1 = .ok "__unspecified_name__" ∧
    get_resource_name id namelessDoc1 =
      .ok (.vstr (quick_hash id (dict_to_yaml namelessDoc1))) ∧
    get_key DEFAULT_RESOURCE_KIND "__unspecified_name__" namelessDoc1 =
      get_key DEFAULT_RESOURCE_KIND "__unspecified_name__" namelessDoc2 :=
  c7_name_fallback DEFAULT_RESOURCE_KIND "__unspecified_name__" id
    namelessDoc1 namelessDoc2
    (.cons "namespace" (.vstr "test-ns") .nil)
    (.cons "namespace" (.vstr "test-ns") .nil)
    rfl rfl rfl rfl rfl rfl

end Devexy

namespace Devexy

/-- C9: on a cached status record whose four replica fields read as
non-negative integers (absent fields read as 0), the code's status text
equals the specification's decision procedure, branch for branch. -/
theorem c9_status_decision (r : Resource) (sF : Fields) (c ry av un : Int)
    (hs : r.k8s_status = .vobj sF)
    (hc : statusGet sF "currentReplicas" = .vint c) (hc0 : 0 ≤ c)
    (hr : statusGet sF "readyReplicas" = .vint ry) (hr0 : 0 ≤ ry)
    (ha : statusGet sF "availableReplicas" = .vint av) (ha0 : 0 ≤ av)
    (hu : statusGet sF "unavailableReplicas" = .vint un) (hu0 : 0 ≤ un) :
    ClusterTable.get_status r = .ok (specStatusText r.is_proxying r.forwarding c ry av un) := by
  unfold ClusterTable.get_status specStatusText
  rw [hs]
  simp only [Bind.bind, Except.bind, hc, hr, ha, hu, pyGt, pyNum, pyTruthy]
  simp only [Bool.and_eq_true, Bool.not_eq_true', decide_eq_true_eq, decide_eq_false_iff_not,
    not_not, gt_iff_lt, pure, Except.pure]
  split_ifs <;> first
    | rfl
    | omega

/-- C9 witness: the theorem evaluated on a resource with one available,
ready and current replica, a live port-forward and no proxy: the
status renders as the forward arrow. -/
theorem c9_status_decision_witness :
    ClusterTable.get_status rStatus =
      .ok (specStatusText rStatus.is_proxying rStatus.forwarding 1 1 1 0) :=
  c9_status_decision rStatus
    (.cons "availableReplicas" (.vint 1)
    (.cons "readyReplicas" (.vint 1)
    (.cons "currentReplicas" (.vint 1)
    .nil)))
    1 1 1 0 rfl rfl (by decide) rfl (by decide) rfl (by decide) rfl (by decide)

/-- C1 (code evaluated at the failing input): `Resource.apply` shells
out to kubectl on every call. After a first apply that kubectl reports
as changed, a second apply on the unmodified resource again sends the
payload (the subprocess-call log is nonempty), returning `Unchanged`
only because kubectl itself reported `unchanged`; and no
`last_applied_hash` is ever written to the cache record — the
hash-gating that the claim (and `tests/test_resource.py`) describe does
not exist in `Resource.apply`. -/
theorem c1_apply_always_shells_out :
    r0.apply cpChanged = (r0, some true, [r0.yaml]) ∧
    ((r0.apply cpChanged).1.apply cpUnchanged).2.2 = [r0.yaml] ∧
    ((r0.apply cpChanged).1.apply cpUnchanged).2.1 = some false ∧
    (r0.apply cpChanged).1.k8sState.lookup "last_applied_hash" = none := by
  exact ⟨rfl, rfl, rfl, rfl⟩

end Devexy

namespace Devexy

/-- Starting a port-forward touches only the child-liveness flag. -/
theorem start_forwarding_state (r : Resource) :
    (r.start_forwarding).k8sState = r.k8sState ∧ (r.start_forwarding).doc = r.doc ∧
      (r.start_forwarding).original = r.original := by
  unfold Resource.start_forwarding
  repeat' split
  all_goals exact ⟨rfl, rfl, rfl⟩

/-- Enabling services touches only the activity flags; an already-live
forward stays live. -/
theorem enable_services_state (dk : String) (r : Resource) :
    (r.enable_services dk).k8sState = r.k8sState ∧ (r.enable_services dk).doc = r.doc ∧
      (r.enable_services dk).original = r.original ∧
      (r.forwarding = true → (r.enable_services dk).forwarding = true) := by
  unfold Resource.enable_services
  split
  · exact ⟨rfl, rfl, rfl, fun h => h⟩
  · dsimp only
    repeat' split
    all_goals
      first
        | exact ⟨rfl, rfl, rfl, fun h => h⟩
        | (refine ⟨(start_forwarding_state _).1.trans rfl,
              (start_forwarding_state _).2.1.trans rfl,
              (start_forwarding_state _).2.2.trans rfl, ?_⟩
           intro hf
           simp_all)

/-- Removing the reverse proxy touches only the working document. -/
theorem remove_state (cp : CompletedProcess) (r : Resource) :
    (r.remove_reverse_proxy cp).1.k8sState = r.k8sState ∧
      (r.remove_reverse_proxy cp).1.original = r.original ∧
      (r.remove_reverse_proxy cp).1.forwarding = r.forwarding ∧
      (r.remove_reverse_proxy cp).1.monitoring = r.monitoring := by
  unfold Resource.remove_reverse_proxy
  repeat' split
  all_goals exact ⟨rfl, rfl, rfl, rfl⟩

/-- Inversion for the container assignment: on success the document is
the input with `spec` rewritten (to a mapping). -/
theorem setContainersPath_ok {doc : Fields} {c : Val} {doc' : Fields}
    (h : setContainersPath doc c = .ok doc') :
    ∃ sf, doc' = doc.set "spec" (.vobj sf) := by
  unfold setContainersPath at h
  simp only [Bind.bind, Except.bind] at h
  repeat' split at h
  all_goals simp_all [pure, Except.pure]
  exact ⟨_, h.symm⟩

/-- A successful proxy injection touches only the working document, and
afterwards the document's `spec` is a mapping unless the injection was
a guarded no-op. -/
theorem inject_state {dk : String} {r r' : Resource}
    (h : r.inject_reverse_proxy dk = .ok r') :
    r'.k8sState = r.k8sState ∧ r'.original = r.original ∧
      r'.forwarding = r.forwarding ∧ r'.monitoring = r.monitoring ∧
      (r'.doc = r.doc ∨ ∃ sf, r'.doc.lookup "spec" = some (.vobj sf)) := by
  unfold Resource.inject_reverse_proxy at h
  split at h
  · cases h
    exact ⟨rfl, rfl, rfl, rfl, Or.inl rfl⟩
  · simp only [Bind.bind, Except.bind] at h
    split at h
    · exact absurd h (by simp)
    · split at h
      · cases h
        exact ⟨rfl, rfl, rfl, rfl, Or.inl rfl⟩
      · split at h
        · cases h
          exact ⟨rfl, rfl, rfl, rfl, Or.inl rfl⟩
        · split at h
          · exact absurd h (by simp)
          · split at h
            · exact absurd h (by simp)
            · rename_i doc' hset
              cases h
              refine ⟨rfl, rfl, rfl, rfl, Or.inr ?_⟩
              obtain ⟨sf, hd⟩ := setContainersPath_ok hset
              exact ⟨sf, by simp [hd, Fields.lookup_set_self]⟩

end Devexy

namespace Devexy

/-- C10: `is_proxying` is computed solely from the cached
`proxy_installed` flag. Toggling routing mode (either direction) never
changes that flag — hence never changes `is_proxying` — a freshly
constructed resource with no cache record is not proxying, and one
successful poll iteration sets the flag to exactly whether the live
first container is named `devexy-reverse-proxy`. -/
theorem c10_proxy_flag_provenance :
    (∀ (dk : String) (cp : CompletedProcess) (r r' : Resource) (calls : List String),
        r.toggle_forwarding_mode dk cp = .ok (r', calls) →
        r'.k8sState.lookup "proxy_installed" = r.k8sState.lookup "proxy_installed" ∧
          r'.is_proxying = r.is_proxying) ∧
    (∀ (dk dn : String) (doc : Fields) (r : Resource),
        Resource.init dk dn doc none = .ok r → r.is_proxying = false) ∧
    (∀ (cs cf : Fields) (now : String) (r : Resource),
        get_first_container cs = .ok (some (.vobj cf)) →
        pyTruthy (.vobj cf) = true →
        (r.monitorStep (some cs) now).k8sState.lookup "proxy_installed" =
          some (.vbool (cf.lookup "name" = some (.vstr K8S_REVERSE_PROXY_CONTAINER_NAME)))) := by
  refine ⟨?_, ?_, ?_⟩
  · intro dk cp r r' calls h
    have hstate : r'.k8sState = r.k8sState := by
      unfold Resource.toggle_forwarding_mode at h
      split at h
      · rcases hrem : r.remove_reverse_proxy cp with ⟨r1, b, calls1⟩
        rw [hrem] at h
        cases h
        have hh := (remove_state cp r).1
        rw [hrem] at hh
        exact (enable_services_state dk r1).1.trans hh
      · simp only [Bind.bind, Except.bind] at h
        cases hinj : r.inject_reverse_proxy dk with
        | error e => rw [hinj] at h; cases h
        | ok r1 =>
            rw [hinj] at h
            simp only [Resource.apply, pure, Except.pure] at h
            cases h
            exact (enable_services_state dk r1).1.trans (inject_state hinj).1
    exact ⟨by rw [hstate], by unfold Resource.is_proxying; rw [hstate]⟩
  · intro dk dn doc r h
    unfold Resource.init at h
    cases hk : get_key dk dn doc with
    | error e => rw [hk] at h; cases h
    | ok key =>
        rw [hk] at h
        simp only [Bind.bind, Except.bind, pure, Except.pure] at h
        cases h
        rfl
  · intro cs cf now r h3 h4
    unfold Resource.monitorStep
    dsimp only
    rw [h3]
    simp only [h4, if_true]
    rw [Fields.lookup_set_ne _ (by decide), Fields.lookup_set_self]

end Devexy

namespace Devexy

/-- C10 witness: the three parts of the provenance theorem evaluated on
the concrete test resource, its toggle into reverse mode, and one poll
observing the installed proxy. -/
theorem c10_proxy_flag_provenance_witness :
    (c10T.1.k8sState.lookup "proxy_installed" = r0.k8sState.lookup "proxy_installed" ∧
      c10T.1.is_proxying = r0.is_proxying) ∧
    r0.is_proxying = false ∧
    (r0.monitorStep (some clusterProxyState) "t").k8sState.lookup "proxy_installed" =
      some (.vbool (Fields.lookup "name" (.cons "name" (.vstr "devexy-reverse-proxy") .nil) =
        some (.vstr K8S_REVERSE_PROXY_CONTAINER_NAME))) :=
  ⟨c10_proxy_flag_provenance.1 DEFAULT_RESOURCE_KIND cpChanged r0 c10T.1 c10T.2 (by rfl),
   c10_proxy_flag_provenance.2.1 DEFAULT_RESOURCE_KIND "__unspecified_name__" testDeployment r0
     (by rfl),
   c10_proxy_flag_provenance.2.2 clusterProxyState
     (.cons "name" (.vstr "devexy-reverse-proxy") .nil) "t" r0 (by rfl) (by rfl)⟩

end Devexy

namespace Devexy

/-- C3 counterexample: toggling a resource with a live port-forward
into reverse mode leaves the forward child running (nothing stops it),
and once the poller observes the installed proxy container both
`forwarding` and `proxying` are on at once — the claimed mutual
exclusion does not hold. -/
theorem c3_counterexample :
    rFwd.toggle_forwarding_mode DEFAULT_RESOURCE_KIND cpChanged = .ok c3T ∧
    rFwd.forwarding = true ∧ rFwd.is_proxying = false ∧
    c3T.1.forwarding = true ∧
    c3Observed.is_proxying = true ∧ c3Observed.forwarding = true := by
  exact ⟨by rfl, rfl, rfl, by rfl, by rfl, by rfl⟩

/-- C3 (amended): toggling into reverse mode replaces the working
document's pod-template containers with the proxy template and applies
it, but it never stops an active port-forward and never touches the
cache record: an active forward stays alive, so after the poller
observes the installed proxy, forwarding and proxying are both on. -/
theorem c3_toggle_reverse_keeps_forward (dk : String) (cp : CompletedProcess)
    (r r' : Resource) (calls : List String) (lp p : Int) (doc' : Fields)
    (h0 : r.is_proxying = false)
    (h1 : r.forwarding = true)
    (hs : r.is_scalable dk = true)
    (hlp : get_local_port r.doc = .ok (some lp)) (hlp0 : lp ≠ 0)
    (hp : r.get_container_port = .ok p)
    (hset : setContainersPath r.doc (get_reverse_proxy_container lp p) = .ok doc')
    (htog : r.toggle_forwarding_mode dk cp = .ok (r', calls)) :
    r'.forwarding = true ∧
    r'.doc = doc' ∧
    calls = [dict_to_yaml doc'] ∧
    r'.k8sState = r.k8sState := by
  unfold Resource.toggle_forwarding_mode at htog
  rw [h0] at htog
  simp only [Bool.false_eq_true, if_false, Bind.bind, Except.bind] at htog
  have hinj : r.inject_reverse_proxy dk = .ok { r with doc := doc' } := by
    unfold Resource.inject_reverse_proxy
    rw [hs]
    simp only [Bool.not_true, Bool.false_eq_true, if_false, Bind.bind, Except.bind, hlp, hp, hset,
      if_neg hlp0, pure, Except.pure]
  rw [hinj] at htog
  simp only [Resource.apply, pure, Except.pure] at htog
  cases htog
  have hes := enable_services_state dk { r with doc := doc' }
  exact ⟨hes.2.2.2 h1, hes.2.1.trans rfl, rfl, hes.1.trans rfl⟩

/-- C3 witness: the amended theorem evaluated on the concrete forwarded
resource. -/
theorem c3_toggle_reverse_keeps_forward_witness :
    c3T.1.forwarding = true ∧
    c3T.1.doc = c3InjDoc ∧
    c3T.2 = [dict_to_yaml c3InjDoc] ∧
    c3T.1.k8sState = rFwd.k8sState :=
  c3_toggle_reverse_keeps_forward DEFAULT_RESOURCE_KIND cpChanged
    rFwd c3T.1 c3T.2 8080 80 c3InjDoc
    rfl rfl (by rfl) (by rfl) (by decide) (by rfl) (by rfl) (by rfl)

end Devexy

namespace Devexy

/-- One poll iteration never touches the documents or activity flags. -/
theorem monitor_state (x : Option Fields) (now : String) (r : Resource) :
    (r.monitorStep x now).doc = r.doc ∧ (r.monitorStep x now).original = r.original ∧
      (r.monitorStep x now).forwarding = r.forwarding ∧
      (r.monitorStep x now).monitoring = r.monitoring := by
  unfold Resource.monitorStep
  repeat' split
  all_goals exact ⟨rfl, rfl, rfl, rfl⟩

/-- One successful poll that sees a truthy mapping as the first live
container stores `proxy_installed` as the container-name comparison. -/
theorem monitor_sets_proxy_flag (cs cf : Fields) (now : String) (r : Resource)
    (h3 : get_first_container cs = .ok (some (.vobj cf)))
    (h4 : pyTruthy (.vobj cf) = true) :
    (r.monitorStep (some cs) now).k8sState.lookup "proxy_installed" =
      some (.vbool (cf.lookup "name" = some (.vstr K8S_REVERSE_PROXY_CONTAINER_NAME))) := by
  unfold Resource.monitorStep
  dsimp only
  rw [h3]
  simp only [h4, if_true]
  rw [Fields.lookup_set_ne _ (by decide), Fields.lookup_set_self]

/-- A document whose `spec` is absent or a mapping yields a replica
count without raising. -/
theorem get_replicas_ok_of_shape {doc : Fields}
    (h : doc.lookup "spec" = none ∨ ∃ sf, doc.lookup "spec" = some (.vobj sf)) :
    ∃ cur, get_replicas doc = .ok cur := by
  unfold get_replicas get_spec
  rcases h with h | ⟨sf, h⟩ <;> rw [h] <;> exact ⟨_, rfl⟩

/-- Setting `spec.replicas` on a document whose `spec` is absent or a
mapping succeeds and changes nothing but the `spec.replicas` path. -/
theorem set_replicas_doc_props (rep : Val) (doc : Fields)
    (h : doc.lookup "spec" = none ∨ ∃ sf, doc.lookup "spec" = some (.vobj sf)) :
    ∃ doc', set_replicas_doc rep doc = .ok doc' ∧
      (∀ k, k ≠ "spec" → doc'.lookup k = doc.lookup k) ∧
      (∀ k, k ≠ "replicas" → specLookup doc' k = specLookup doc k) ∧
      specLookup doc' "replicas" = some rep := by
  rcases h with h | ⟨sf, h⟩
  · have hhas : doc.hasKey "spec" = false := by
      cases hk : doc.hasKey "spec"
      · rfl
      · obtain ⟨v, hv⟩ := (Fields.hasKey_iff_lookup "spec" doc).1 hk
        rw [hv] at h
        cases h
    refine ⟨(doc.set "spec" (.vobj .nil)).set "spec"
        (.vobj (Fields.set "replicas" rep .nil)), ?_, ?_, ?_, ?_⟩
    · unfold set_replicas_doc
      rw [hhas]
      simp only [Bool.false_eq_true, if_false, Fields.lookup_set_self]
    · intro k hk
      rw [Fields.lookup_set_ne _ hk, Fields.lookup_set_ne _ hk]
    · intro k hk
      unfold specLookup
      rw [Fields.lookup_set_self, h]
      simp [Fields.set, Fields.lookup, hk, Ne.symm hk]
    · unfold specLookup
      rw [Fields.lookup_set_self]
      simp [Fields.set, Fields.lookup]
  · have hhas : doc.hasKey "spec" = true :=
      (Fields.hasKey_iff_lookup "spec" doc).2 ⟨_, h⟩
    refine ⟨doc.set "spec" (.vobj (Fields.set "replicas" rep sf)), ?_, ?_, ?_, ?_⟩
    · unfold set_replicas_doc
      rw [hhas]
      simp only [if_true, h]
    · intro k hk
      rw [Fields.lookup_set_ne _ hk]
    · intro k hk
      unfold specLookup
      rw [Fields.lookup_set_self, h]
      dsimp only
      rw [Fields.lookup_set_ne _ hk]
    · unfold specLookup
      rw [Fields.lookup_set_self]
      dsimp only
      rw [Fields.lookup_set_self]

/-- C4: starting not-proxying and scalable (with documents whose `spec`
is absent or a mapping), a first routing toggle followed by a poll that
observes the installed proxy and a second toggle restores the working
document to the original in every field except the `spec.replicas`
path, which receives the replica value current on the working document
at the second toggle. -/
theorem c4_toggle_twice_restores (dk now : String) (cp1 cp2 : CompletedProcess)
    (cs cf : Fields) (r r1 : Resource) (c1 : List String)
    (h0 : r.is_proxying = false)
    (hsc : r.is_scalable dk = true)
    (hos : r.original.lookup "spec" = none ∨ ∃ sf, r.original.lookup "spec" = some (.vobj sf))
    (hds : r.doc.lookup "spec" = none ∨ ∃ sf, r.doc.lookup "spec" = some (.vobj sf))
    (htog : r.toggle_forwarding_mode dk cp1 = .ok (r1, c1))
    (h3 : get_first_container cs = .ok (some (.vobj cf)))
    (h4 : pyTruthy (.vobj cf) = true)
    (h5 : cf.lookup "name" = some (.vstr K8S_REVERSE_PROXY_CONTAINER_NAME)) :
    ∃ r2 c2 cur,
      (r1.monitorStep (some cs) now).toggle_forwarding_mode dk cp2 = .ok (r2, c2) ∧
      get_replicas r1.doc = .ok cur ∧
      set_replicas_doc cur r.original = .ok r2.doc ∧
      r2.original = r.original ∧
      (∀ k, k ≠ "spec" → r2.doc.lookup k = r.original.lookup k) ∧
      (∀ k, k ≠ "replicas" → specLookup r2.doc k = specLookup r.original k) ∧
      specLookup r2.doc "replicas" = some cur := by
  -- unpack the first toggle: injection branch
  unfold Resource.toggle_forwarding_mode at htog
  rw [h0] at htog
  simp only [Bool.false_eq_true, if_false, Bind.bind, Except.bind] at htog
  cases hinj : r.inject_reverse_proxy dk with
  | error e => rw [hinj] at htog; cases htog
  | ok rI =>
      rw [hinj] at htog
      simp only [Resource.apply, pure, Except.pure] at htog
      cases htog
      have hes := enable_services_state dk rI
      have hIstate := inject_state hinj
      have hdoc1 : (rI.enable_services dk).doc = rI.doc := hes.2.1
      have horig1 : (rI.enable_services dk).original = r.original := hes.2.2.1.trans hIstate.2.1
      -- shape of the working document after the first toggle
      have hshape : (rI.enable_services dk).doc.lookup "spec" = none ∨
          ∃ sf, (rI.enable_services dk).doc.lookup "spec" = some (.vobj sf) := by
        rw [hdoc1]
        rcases hIstate.2.2.2.2 with hsame | hspec
        · rw [hsame]; exact hds
        · exact Or.inr hspec
      obtain ⟨cur, hcur⟩ := get_replicas_ok_of_shape hshape
      obtain ⟨doc₂, hset, hother, hspecl, hrepl⟩ := set_replicas_doc_props cur r.original hos
      -- the poll marks the proxy installed
      have hprox : ((rI.enable_services dk).monitorStep (some cs) now).is_proxying = true := by
        unfold Resource.is_proxying
        rw [monitor_sets_proxy_flag cs cf now _ h3 h4]
        simp [pyTruthy, h5]
      have hmon := monitor_state (some cs) now (rI.enable_services dk)
      refine ⟨Resource.enable_services dk
          { (Resource.monitorStep (some cs) now (rI.enable_services dk)) with doc := doc₂ },
        [dict_to_yaml doc₂], cur, ?_, hcur, ?_, ?_, ?_, ?_, ?_⟩
      · -- the second toggle takes the removal branch and succeeds
        unfold Resource.toggle_forwarding_mode
        simp only [hprox, if_true]
        unfold Resource.remove_reverse_proxy
        rw [hmon.1, hcur]
        dsimp only
        rw [hmon.2.1, horig1, hset]
        dsimp only
        rfl
      · rw [(enable_services_state dk _).2.1]
        exact hset
      · rw [(enable_services_state dk _).2.2.1]
        exact (monitor_state (some cs) now (rI.enable_services dk)).2.1.trans horig1
      · intro k hk
        rw [(enable_services_state dk _).2.1]
        exact hother k hk
      · intro k hk
        rw [(enable_services_state dk _).2.1]
        exact hspecl k hk
      · rw [(enable_services_state dk _).2.1]
        exact hrepl

end Devexy

namespace Devexy

/-- C4 witness: the double-toggle theorem evaluated on the concrete
test resource, with the poller observing the installed proxy between
the toggles. -/
theorem c4_toggle_twice_restores_witness :
    ∃ r2 c2 cur,
      (c10T.1.monitorStep (some clusterProxyState) "t").toggle_forwarding_mode
          DEFAULT_RESOURCE_KIND cpUnchanged = .ok (r2, c2) ∧
      get_replicas c10T.1.doc = .ok cur ∧
      set_replicas_doc cur r0.original = .ok r2.doc ∧
      r2.original = r0.original ∧
      (∀ k, k ≠ "spec" → r2.doc.lookup k = r0.original.lookup k) ∧
      (∀ k, k ≠ "replicas" → specLookup r2.doc k = specLookup r0.original k) ∧
      specLookup r2.doc "replicas" = some cur :=
  c4_toggle_twice_restores DEFAULT_RESOURCE_KIND "t" cpChanged cpUnchanged
    clusterProxyState (.cons "name" (.vstr "devexy-reverse-proxy") .nil) r0 c10T.1 c10T.2
    rfl (by rfl) (Or.inr ⟨_, rfl⟩) (Or.inr ⟨_, rfl⟩) (by rfl) (by rfl) (by rfl) (by rfl)

end Devexy

namespace Devexy

/-- C2 (code evaluated at the failing input): for the fresh scalable
Deployment `app/web` with overlay replicas 3, the inspect reconciler's
per-resource step applies the document with replicas still 3 — the
replica-adjustment block always falls into its exception handler
because `kubectl.get_replicas` does not exist on `Kubectl` — while the
workon variant, for comparison, sets the replicas from the cluster's
last-applied configuration (2), not from the overlay. -/
theorem c2_replicas_never_adjusted :
    kubectl_get_replicas = .error .attributeError ∧
    rWeb.is_scalable DEFAULT_RESOURCE_KIND = true ∧
    inspect_apply_step DEFAULT_RESOURCE_KIND cpChanged rWeb =
      (rWeb, some true, [dict_to_yaml webDoc3]) ∧
    get_replicas webDoc3 = .ok (.vint 3) ∧
    (match workon_set_initial_replicas DEFAULT_RESOURCE_KIND
        (some (.vobj lastApplied2)) rWeb with
     | .ok r' => get_replicas r'.doc = .ok (.vint 2)
     | .error _ => False) := by
  refine ⟨rfl, by rfl, by rfl, by rfl, by rfl⟩

end Devexy

namespace Devexy

/-- Digit characters of values below ten. -/
theorem digitChar_isDigit {d : Nat} (h : d < 10) : (digitChar d).isDigit = true := by
  interval_cases d <;> decide

/-- Numeric value of a digit character. -/
theorem digitChar_toNat {d : Nat} (h : d < 10) : (digitChar d).toNat = 48 + d := by
  interval_cases d <;> decide

/-- The accumulator splits off the digit run. -/
theorem natChars_append (n : Nat) (acc : List Char) :
    natChars n acc = natChars n [] ++ acc := by
  by_cases h : n < 10
  · conv_lhs => rw [natChars]
    conv_rhs => rw [natChars]
    simp [h]
  · conv_lhs => rw [natChars]
    conv_rhs => rw [natChars]
    simp only [h, dite_false]
    rw [natChars_append (n / 10) (digitChar (n % 10) :: acc),
        natChars_append (n / 10) [digitChar (n % 10)]]
    simp
  termination_by n
  decreasing_by all_goals exact Nat.div_lt_self (by omega) (by omega)

/-- Every character of a printed natural number is a digit. -/
theorem natChars_digits (n : Nat) : ∀ c ∈ natChars n [], c.isDigit = true := by
  by_cases h : n < 10
  · rw [natChars]
    simp only [h, dite_true]
    intro c hc
    simp at hc
    rw [hc]
    exact digitChar_isDigit h
  · rw [natChars]
    simp only [h, dite_false]
    rw [natChars_append]
    intro c hc
    rcases List.mem_append.1 hc with hc | hc
    · exact natChars_digits (n / 10) c hc
    · simp at hc
      rw [hc]
      exact digitChar_isDigit (Nat.mod_lt _ (by omega))
  termination_by n
  decreasing_by exact Nat.div_lt_self (by omega) (by omega)

/-- A printed natural number is never empty. -/
theorem natChars_ne_nil (n : Nat) : natChars n [] ≠ [] := by
  rw [natChars]
  by_cases h : n < 10
  · simp [h]
  · simp only [h, dite_false]
    rw [natChars_append]
    simp

/-- Folding the decimal digits back recovers the number (with an
arbitrary prefix value). -/
theorem foldl_natChars (n a : Nat) :
    (natChars n []).foldl (fun x c => x * 10 + (c.toNat - 48)) a =
      a * 10 ^ (natChars n []).length + n := by
  by_cases h : n < 10
  · conv_lhs => rw [natChars]
    conv_rhs => rw [natChars]
    simp [h, digitChar_toNat h]
  · conv_lhs => rw [natChars]
    conv_rhs => rw [natChars]
    simp only [h, dite_false]
    rw [natChars_append (n / 10) [digitChar (n % 10)], List.foldl_append,
      foldl_natChars (n / 10) a]
    have hm : (digitChar (n % 10)).toNat = 48 + n % 10 :=
      digitChar_toNat (Nat.mod_lt _ (by omega))
    simp only [List.foldl_cons, List.foldl_nil, List.length_append, List.length_cons,
      List.length_nil, hm]
    rw [pow_succ]
    have := Nat.div_add_mod n 10
    ring_nf
    omega
  termination_by n
  decreasing_by exact Nat.div_lt_self (by omega) (by omega)

/-- Digit runs are accepted by the integer lexer. -/
theorem usTail_of_digits (cs : List Char) (h : ∀ c ∈ cs, c.isDigit = true) :
    usTail cs = true := by
  induction cs with
  | nil => rfl
  | cons c rest ih =>
      have hc := h c (by simp)
      have hne : c ≠ '_' := by
        intro he
        rw [he] at hc
        exact absurd hc (by decide)
      rw [usTail]
      simp [hne, hc, ih (fun x hx => h x (by simp [hx]))]

/-- Nonempty digit runs are accepted by the integer lexer. -/
theorem usOk_of_digits (cs : List Char) (hne : cs ≠ [])
    (h : ∀ c ∈ cs, c.isDigit = true) : usOk cs = true := by
  cases cs with
  | nil => exact absurd rfl hne
  | cons c rest =>
      rw [usOk]
      simp [h c (by simp), usTail_of_digits rest (fun x hx => h x (by simp [hx]))]

/-- Digit runs carry no underscores, so their value is the plain fold. -/
theorem digitsVal_of_digits (cs : List Char) (h : ∀ c ∈ cs, c.isDigit = true) :
    digitsVal cs = cs.foldl (fun x c => x * 10 + (c.toNat - 48)) 0 := by
  unfold digitsVal
  congr 1
  apply List.filter_eq_self.2
  intro c hc
  have := h c hc
  simp only [decide_eq_true_eq]
  intro he
  rw [he] at this
  exact absurd this (by decide)

/-- The printed natural number parses back to itself. -/
theorem digitsVal_natChars (n : Nat) : digitsVal (natChars n []) = n := by
  rw [digitsVal_of_digits _ (natChars_digits n), foldl_natChars]
  simp

end Devexy

namespace Devexy

/-- Lists with different heads differ. -/
theorem cons_ne_of_head {c d : Char} {cs l : List Char} (h : c ≠ d) :
    c :: cs ≠ d :: l := by
  intro he
  injection he with h1 _
  exact h h1

/-- A digit head is not a letter-like keyword head. -/
theorem head_digit_ne {c : Char} {cs : List Char} (hc : c.isDigit = true)
    {d : Char} (hd : d.isDigit = false) {l : List Char} : c :: cs ≠ d :: l := by
  apply cons_ne_of_head
  intro he
  rw [he, hd] at hc
  cases hc

/-- The resolver reads a nonempty digit run as the integer it denotes. -/
theorem resolveScalar_digits (c : Char) (cs : List Char)
    (hd : ∀ x ∈ c :: cs, x.isDigit = true) :
    resolveScalar (c :: cs) = .vint (digitsVal (c :: cs)) := by
  have hc := hd c (by simp)
  unfold resolveScalar
  rw [if_neg (by
        rw [show ("null".data : List Char) = 'n' :: "ull".data from rfl]
        exact head_digit_ne hc (by decide)),
      if_neg (by
        rw [show ("true".data : List Char) = 't' :: "rue".data from rfl]
        exact head_digit_ne hc (by decide)),
      if_neg (by
        rw [show ("false".data : List Char) = 'f' :: "alse".data from rfl]
        exact head_digit_ne hc (by decide)),
      if_neg (by exact head_digit_ne hc (by decide)),
      if_neg (by exact head_digit_ne hc (by decide))]
  split
  · rename_i rest heq
    exfalso
    exact head_digit_ne hc (by decide) heq
  · rename_i rest heq
    exfalso
    exact head_digit_ne hc (by decide) heq
  · rw [if_pos (usOk_of_digits _ (by simp) hd)]

/-- The canonical integer text resolves back to the integer. -/
theorem resolveScalar_intChars (n : Int) : resolveScalar (intChars n) = .vint n := by
  by_cases h : n < 0
  · unfold intChars
    rw [if_pos h]
    unfold resolveScalar
    rw [if_neg (by
          rw [show ("null".data : List Char) = 'n' :: "ull".data from rfl]
          exact cons_ne_of_head (by decide)),
        if_neg (by
          rw [show ("true".data : List Char) = 't' :: "rue".data from rfl]
          exact cons_ne_of_head (by decide)),
        if_neg (by
          rw [show ("false".data : List Char) = 'f' :: "alse".data from rfl]
          exact cons_ne_of_head (by decide)),
        if_neg (by exact cons_ne_of_head (by decide)),
        if_neg (by exact cons_ne_of_head (by decide))]
    split
    · rename_i rest heq
      injection heq with _ h2
      subst h2
      rw [if_pos (usOk_of_digits _ (natChars_ne_nil _) (natChars_digits _))]
      rw [digitsVal_of_digits _ (natChars_digits _), foldl_natChars]
      simp only [Val.vint.injEq]
      omega
    · rename_i rest heq
      exfalso
      exact cons_ne_of_head (by decide) heq
    · rename_i hne1 hne2
      exfalso
      exact hne1 (natChars n.natAbs []) rfl
  · unfold intChars
    rw [if_neg h]
    obtain ⟨c, cs, hrep⟩ : ∃ c cs, natChars n.natAbs [] = c :: cs := by
      cases hh : natChars n.natAbs [] with
      | nil => exact absurd hh (natChars_ne_nil _)
      | cons c cs => exact ⟨c, cs, rfl⟩
    rw [hrep, resolveScalar_digits c cs (by rw [← hrep]; exact natChars_digits _), ← hrep]
    rw [digitsVal_natChars]
    simp only [Val.vint.injEq]
    omega

end Devexy

namespace Devexy

/-- Characters are distinguished by any Boolean predicate. -/
theorem ne_of_pred_false {c d : Char} (p : Char → Bool) (hc : p c = true)
    (hd : p d = false) : c ≠ d := by
  intro he
  rw [he, hd] at hc
  cases hc

/-- Strings with equal character data are equal. -/
theorem data_inj {s t : String} (h : s.data = t.data) : s = t :=
  congrArg String.mk h

/-- A letter is not a digit: the basic-latin letter ranges and the digit
range of code points are disjoint. -/
theorem alpha_not_digit {c : Char} (h : c.isAlpha = true) : c.isDigit = false := by
  simp only [Char.isAlpha, Char.isUpper, Char.isLower, Char.isDigit, GE.ge,
    Bool.or_eq_true, Bool.and_eq_true, decide_eq_true_eq, Bool.and_eq_false_iff,
    decide_eq_false_iff_not, UInt32.le_def, BitVec.le_def] at h ⊢
  have e48 : (UInt32.toBitVec 48).toNat = 48 := rfl
  have e57 : (UInt32.toBitVec 57).toNat = 57 := rfl
  have e65 : (UInt32.toBitVec 65).toNat = 65 := rfl
  have e90 : (UInt32.toBitVec 90).toNat = 90 := rfl
  have e97 : (UInt32.toBitVec 97).toNat = 97 := rfl
  have e122 : (UInt32.toBitVec 122).toNat = 122 := rfl
  rw [e65, e90, e97, e122] at h
  rw [e48, e57]
  omega

/-- Structure of a plain string: a letter-led character list. -/
theorem plainStr_parts {s : String} (h : plainStr s = true) :
    ∃ c cs, s.data = c :: cs ∧ c.isAlpha = true ∧ (∀ x ∈ s.data, plainChar x = true) ∧
      scalarBlacklist.contains s = false := by
  unfold plainStr at h
  simp only [Bool.and_eq_true, Bool.not_eq_true'] at h
  obtain ⟨⟨h1, h2⟩, h3⟩ := h
  cases hd : s.data with
  | nil => rw [hd] at h1; cases h1
  | cons c cs =>
      rw [hd] at h1 h2
      refine ⟨c, cs, rfl, h1, ?_, h3⟩
      intro x hx
      exact (List.all_eq_true.1 h2) x hx

/-- The resolver reads a plain string back as the same string. -/
theorem resolveScalar_plain {s : String} (h : plainStr s = true) :
    resolveScalar s.data = .vstr s := by
  obtain ⟨c, cs, hd, hca, _hall, hbl⟩ := plainStr_parts h
  have hdig : c.isDigit = false := alpha_not_digit hca
  have hnebl : ∀ t : String, scalarBlacklist.contains t = true → s.data ≠ t.data := by
    intro t hmem he
    rw [data_inj he] at hbl
    rw [hmem] at hbl
    cases hbl
  unfold resolveScalar
  rw [if_neg (hnebl "null" (by decide)),
      if_neg (hnebl "true" (by decide)),
      if_neg (hnebl "false" (by decide)),
      if_neg (by rw [hd]; exact cons_ne_of_head (ne_of_pred_false Char.isAlpha hca (by decide))),
      if_neg (by rw [hd]; exact cons_ne_of_head (ne_of_pred_false Char.isAlpha hca (by decide)))]
  rw [hd]
  split
  · rename_i rest heq
    exact absurd heq (cons_ne_of_head (ne_of_pred_false Char.isAlpha hca (by decide)))
  · rename_i rest heq
    exact absurd heq (cons_ne_of_head (ne_of_pred_false Char.isAlpha hca (by decide)))
  · rw [if_neg (by simp [usOk, hdig])]
    rw [← hd]

/-- Round trip of inline scalars: for well-formed values the resolver
inverts the scalar printer. -/
theorem resolveScalar_scalarChars {v : Val} {sc : List Char}
    (hwf : wfV v = true) (hsc : scalarChars v = some sc) :
    resolveScalar sc = v := by
  cases v with
  | vstr s =>
      injection hsc with hsc
      rw [← hsc]
      exact resolveScalar_plain (by simpa [wfV] using hwf)
  | vint n =>
      injection hsc with hsc
      rw [← hsc]
      exact resolveScalar_intChars n
  | vbool b =>
      cases b <;> (injection hsc with hsc; rw [← hsc]; decide)
  | vnull =>
      injection hsc with hsc
      rw [← hsc]
      decide
  | varr e =>
      cases e with
      | nil =>
          injection hsc with hsc
          rw [← hsc]
          decide
      | cons a t => cases hsc
  | vobj f =>
      cases f with
      | nil =>
          injection hsc with hsc
          rw [← hsc]
          decide
      | cons k a t => cases hsc

end Devexy

namespace Devexy

/-- Plain characters are not colons. -/
theorem plainChar_not_colon {c : Char} (h : plainChar c = true) : c ≠ ':' := by
  intro he
  rw [he] at h
  exact absurd h (by decide)

/-- Plain characters are not newlines. -/
theorem plainChar_not_nl {c : Char} (h : plainChar c = true) : c ≠ '\n' := by
  intro he
  rw [he] at h
  exact absurd h (by decide)

/-- A content line whose head is not a dash is not a sequence item. -/
theorem isDashed_false_head {c : Char} (r : List Char) (h : c ≠ '-') :
    isDashed (c :: r) = false := by
  unfold isDashed
  split
  · rename_i heq
    injection heq with h1 _
    exact absurd h1 h
  · rfl

/-- A content line whose second character is not a blank is not a
sequence item. -/
theorem isDashed_false_snd {c2 : Char} (c1 : Char) (r : List Char) (h : c2 ≠ ' ') :
    isDashed (c1 :: c2 :: r) = false := by
  unfold isDashed
  split
  · rename_i heq
    injection heq with _ h2
    injection h2 with h2 _
    exact absurd h2 h
  · rfl

/-- Colon-free character lists have no colon under `List.any`. -/
theorem any_colon_false {sc : List Char} (h : ∀ c ∈ sc, c ≠ ':') :
    (sc.any (· = ':')) = false := by
  rw [List.any_eq_false]
  intro x hx
  simp [h x hx]

/-- Structure of the inline characters of a scalar: nonempty, free of
newlines and colons, not shaped like a sequence item, and not starting
with a blank. -/
theorem scalarChars_props {v : Val} {sc : List Char} (hwf : wfV v = true)
    (hsc : scalarChars v = some sc) :
    sc ≠ [] ∧ (∀ c ∈ sc, c ≠ '\n') ∧ (∀ c ∈ sc, c ≠ ':') ∧
      isDashed sc = false ∧ (∀ x ∈ sc.head?, x ≠ ' ') := by
  cases v with
  | vstr s =>
      injection hsc with hsc
      obtain ⟨c, cs, hd, hca, hall, _⟩ := plainStr_parts (by simpa [wfV] using hwf)
      rw [← hsc, hd]
      rw [hd] at hall
      refine ⟨by simp, ?_, ?_, ?_, ?_⟩
      · intro x hx
        exact plainChar_not_nl (hall x hx)
      · intro x hx
        exact plainChar_not_colon (hall x hx)
      · exact isDashed_false_head cs (ne_of_pred_false Char.isAlpha hca (by decide))
      · intro x hx
        simp only [List.head?_cons, Option.mem_def, Option.some.injEq] at hx
        rw [← hx]
        exact ne_of_pred_false Char.isAlpha hca (by decide)
  | vint n =>
      injection hsc with hsc
      rw [← hsc]
      obtain ⟨c, cs, hrep⟩ : ∃ c cs, natChars n.natAbs [] = c :: cs := by
        cases hh : natChars n.natAbs [] with
        | nil => exact absurd hh (natChars_ne_nil _)
        | cons c cs => exact ⟨c, cs, rfl⟩
      have hdig : ∀ x ∈ natChars n.natAbs [], x.isDigit = true := natChars_digits _
      have hcd : c.isDigit = true := by
        apply hdig
        rw [hrep]
        simp
      unfold intChars
      by_cases hneg : n < 0
      · rw [if_pos hneg, hrep]
        refine ⟨by simp, ?_, ?_, ?_, ?_⟩
        · intro x hx
          rcases List.mem_cons.1 hx with h1 | h1
          · rw [h1]; decide
          · have : x.isDigit = true := by
              apply hdig; rw [hrep]; exact h1
            exact ne_of_pred_false Char.isDigit this (by decide)
        · intro x hx
          rcases List.mem_cons.1 hx with h1 | h1
          · rw [h1]; decide
          · have : x.isDigit = true := by
              apply hdig; rw [hrep]; exact h1
            exact ne_of_pred_false Char.isDigit this (by decide)
        · exact isDashed_false_snd '-' cs (ne_of_pred_false Char.isDigit hcd (by decide))
        · intro x hx
          simp only [List.head?_cons, Option.mem_def, Option.some.injEq] at hx
          rw [← hx]
          decide
      · rw [if_neg hneg, hrep]
        refine ⟨by simp, ?_, ?_, ?_, ?_⟩
        · intro x hx
          have : x.isDigit = true := by
            apply hdig; rw [hrep]; exact hx
          exact ne_of_pred_false Char.isDigit this (by decide)
        · intro x hx
          have : x.isDigit = true := by
            apply hdig; rw [hrep]; exact hx
          exact ne_of_pred_false Char.isDigit this (by decide)
        · exact isDashed_false_head cs (ne_of_pred_false Char.isDigit hcd (by decide))
        · intro x hx
          simp only [List.head?_cons, Option.mem_def, Option.some.injEq] at hx
          rw [← hx]
          exact ne_of_pred_false Char.isDigit hcd (by decide)
  | vbool b =>
      cases b <;> (injection hsc with hsc; rw [← hsc]; refine ⟨by decide, ?_, ?_, by decide, by decide⟩ <;> decide)
  | vnull =>
      injection hsc with hsc
      rw [← hsc]
      refine ⟨by decide, ?_, ?_, by decide, by decide⟩ <;> decide
  | varr e =>
      cases e with
      | nil =>
          injection hsc with hsc
          rw [← hsc]
          refine ⟨by decide, ?_, ?_, by decide, by decide⟩ <;> decide
      | cons a t => cases hsc
  | vobj f =>
      cases f with
      | nil =>
          injection hsc with hsc
          rw [← hsc]
          refine ⟨by decide, ?_, ?_, by decide, by decide⟩ <;> decide
      | cons k a t => cases hsc

end Devexy

namespace Devexy

/-- Layout of a mapping entry with an inline scalar value. -/
theorem emitF_cons_some (i : Nat) (k : String) (v : Val) (t : Fields) {sc : List Char}
    (h : scalarChars v = some sc) :
    emitF i (.cons k v t) = (i, k.data ++ ':' :: ' ' :: sc) :: emitF i t := by
  cases v with
  | varr e =>
      rw [emitF.eq_2, h]
      simp
  | vobj f =>
      rw [emitF.eq_3 _ _ _ _ (by intro e he; cases he), h]
      simp
  | vstr s =>
      rw [emitF.eq_3 _ _ _ _ (by intro e he; cases he), h]
      simp
  | vint n =>
      rw [emitF.eq_3 _ _ _ _ (by intro e he; cases he), h]
      simp
  | vbool b =>
      rw [emitF.eq_3 _ _ _ _ (by intro e he; cases he), h]
      simp
  | vnull =>
      rw [emitF.eq_3 _ _ _ _ (by intro e he; cases he), h]
      simp

/-- Layout of a mapping entry with a block (container) value. -/
theorem emitF_cons_none (i : Nat) (k : String) (v : Val) (t : Fields)
    (h : scalarChars v = none) :
    emitF i (.cons k v t) = (i, k.data ++ [':']) :: (emitChild i v ++ emitF i t) := by
  cases v with
  | varr e =>
      rw [emitF.eq_2, h]
      simp [emitChild]
  | vobj f =>
      rw [emitF.eq_3 _ _ _ _ (by intro e he; cases he), h]
      simp [emitChild]
  | vstr s =>
      rw [emitF.eq_3 _ _ _ _ (by intro e he; cases he), h]
      simp [emitChild]
  | vint n =>
      rw [emitF.eq_3 _ _ _ _ (by intro e he; cases he), h]
      simp [emitChild]
  | vbool b =>
      rw [emitF.eq_3 _ _ _ _ (by intro e he; cases he), h]
      simp [emitChild]
  | vnull =>
      rw [emitF.eq_3 _ _ _ _ (by intro e he; cases he), h]
      simp [emitChild]

/-- Layout of a sequence item with an inline scalar. -/
theorem emitE_cons_some (i : Nat) (v : Val) (t : Elems) {sc : List Char}
    (h : scalarChars v = some sc) :
    emitE i (.cons v t) = (i, '-' :: ' ' :: sc) :: emitE i t := by
  rw [emitE.eq_2, h]
  simp

/-- Layout of a block sequence item: the first inner line is compacted
onto the dash. -/
theorem emitE_cons_none (i : Nat) (v : Val) (t : Elems) (j0 : Nat) (c0 : List Char)
    (tl : List Line) (h : scalarChars v = none)
    (hv : emitV (i + 2) v = (j0, c0) :: tl) :
    emitE i (.cons v t) = (i, '-' :: ' ' :: c0) :: (tl ++ emitE i t) := by
  rw [emitE.eq_2, h, hv]
  simp

end Devexy

namespace Devexy

/-- `takeWhile (· ≠ ':')` reads exactly a colon-free prefix. -/
theorem takeWhile_append_colon (k r : List Char) (h : ∀ c ∈ k, c ≠ ':') :
    (k ++ ':' :: r).takeWhile (· ≠ ':') = k := by
  induction k with
  | nil => simp [List.takeWhile_cons]
  | cons c t ih =>
      have hc : c ≠ ':' := h c (by simp)
      rw [List.cons_append, List.takeWhile_cons, if_pos (by simp [hc])]
      rw [ih (fun x hx => h x (by simp [hx]))]

/-- Dropping the key prefix of an entry line leaves the colon suffix. -/
theorem drop_key (k r : List Char) : (k ++ ':' :: r).drop k.length = ':' :: r :=
  List.drop_left k (':' :: r)

/-- The emitted lines of a nonempty container are nonempty. -/
theorem emitV_ne_nil (i : Nat) (v : Val) (hns : scalarChars v = none) :
    emitV i v ≠ [] := by
  cases v with
  | vstr s => cases hns
  | vint n => cases hns
  | vbool b => cases hns
  | vnull => cases hns
  | varr e =>
      cases e with
      | nil => cases hns
      | cons x u =>
          show emitE i (.cons x u) ≠ []
          cases hx : scalarChars x with
          | some sc =>
              rw [emitE_cons_some i x u hx]
              exact List.cons_ne_nil _ _
          | none =>
              have hne := emitV_ne_nil (i + 2) x hx
              cases hv : emitV (i + 2) x with
              | nil => exact absurd hv hne
              | cons l tl =>
                  rw [emitE_cons_none i x u l.1 l.2 tl hx (by rw [hv])]
                  exact List.cons_ne_nil _ _
  | vobj f =>
      cases f with
      | nil => cases hns
      | cons k x u =>
          show emitF i (.cons k x u) ≠ []
          cases hx : scalarChars x with
          | some sc =>
              rw [emitF_cons_some i k x u hx]
              exact List.cons_ne_nil _ _
          | none =>
              rw [emitF_cons_none i k x u hx]
              exact List.cons_ne_nil _ _

end Devexy

namespace Devexy

/-- Good lines compose under concatenation. -/
theorem goodLines_append {a b : List Line} (ha : goodLines a) (hb : goodLines b) :
    goodLines (a ++ b) := by
  intro l hl
  rcases List.mem_append.1 hl with h | h
  · exact ha l h
  · exact hb l h

/-- Splitting after one rendered newline-free line. -/
theorem splitNL_append (cs rest : List Char) (h : '\n' ∉ cs) :
    splitNL (cs ++ '\n' :: rest) = cs :: splitNL rest := by
  induction cs with
  | nil => simp [splitNL]
  | cons c t ih =>
      have hc : c ≠ '\n' := by
        intro he
        exact h (by simp [he])
      rw [List.cons_append, splitNL, if_neg hc,
        ih (fun hm => h (List.mem_cons_of_mem _ hm))]

/-- Lexing inverts rendering of a line whose content does not start
with a blank. -/
theorem lexLine_render : ∀ (i : Nat) (c : List Char), (∀ x ∈ c.head?, x ≠ ' ') →
    lexLine (List.replicate i ' ' ++ c) = (i, c)
  | 0, c, hc => by
      cases c with
      | nil => rfl
      | cons x t =>
          have hx : x ≠ ' ' := hc x (by simp)
          simp [lexLine, List.takeWhile_cons, List.dropWhile_cons, hx]
  | i + 1, c, hc => by
      have ih := lexLine_render i c hc
      unfold lexLine at ih ⊢
      rw [List.replicate_succ, List.cons_append, List.takeWhile_cons, List.dropWhile_cons]
      simp only [decide_eq_true_eq, Prod.mk.injEq] at ih ⊢
      obtain ⟨ih1, ih2⟩ := ih
      simp [ih1, ih2]
      intro hl
      cases c with
      | nil => simp at hl
      | cons a t => simpa using hc a (by simp)

/-- Lexing the joined rendering of good lines recovers them, plus one
trailing empty line from the final newline. -/
theorem splitNL_joinLines (ls : List Line) (h : goodLines ls) :
    (splitNL (joinLines ls)).map lexLine = ls ++ [(0, [])] := by
  induction ls with
  | nil => rfl
  | cons l tl ih =>
      obtain ⟨j, c⟩ := l
      obtain ⟨hne, hhd, hnl⟩ := h (j, c) (by simp)
      have hnl2 : '\n' ∉ List.replicate j ' ' ++ c := by
        intro hm
        rcases List.mem_append.1 hm with hm | hm
        · exact absurd (List.eq_of_mem_replicate hm) (by decide)
        · exact hnl hm
      have htl : goodLines tl := fun l hl => h l (by simp [hl])
      simp only [joinLines, List.foldr_cons]
      rw [renderLine]
      rw [show (List.replicate j ' ' ++ c ++ ['\n']) ++ tl.foldr (fun l acc => renderLine l ++ acc) []
            = (List.replicate j ' ' ++ c) ++ ('\n' :: tl.foldr (fun l acc => renderLine l ++ acc) []) by
        simp]
      rw [splitNL_append _ _ hnl2]
      rw [List.map_cons, lexLine_render j c hhd]
      have ih2 := ih htl
      simp only [joinLines] at ih2
      rw [ih2]
      rfl

end Devexy

namespace Devexy

/-- Prepending one good line to good lines. -/
theorem goodLines_cons {l : Line} {ls : List Line}
    (h1 : l.2 ≠ [] ∧ (∀ c ∈ l.2.head?, c ≠ ' ') ∧ '\n' ∉ l.2)
    (h2 : goodLines ls) : goodLines (l :: ls) := by
  intro x hx
  rcases List.mem_cons.1 hx with h | h
  · rw [h]
    exact h1
  · exact h2 x h

/-- A mapping-entry content line (plain key, newline-free suffix) is a
good physical line. -/
theorem good_key_line {k : String} (hk : plainStr k = true) {r : List Char}
    (hr : ∀ c ∈ r, c ≠ '\n') :
    k.data ++ r ≠ [] ∧ (∀ c ∈ (k.data ++ r).head?, c ≠ ' ') ∧ '\n' ∉ k.data ++ r := by
  obtain ⟨c, cs, hd, hca, hall, _⟩ := plainStr_parts hk
  rw [hd]
  refine ⟨by simp, ?_, ?_⟩
  · intro x hx
    simp only [List.cons_append, List.head?_cons, Option.mem_def, Option.some.injEq] at hx
    rw [← hx]
    exact ne_of_pred_false Char.isAlpha hca (by decide)
  · intro hm
    rw [List.cons_append, List.mem_cons] at hm
    rcases hm with h1 | h1
    · rw [← h1] at hca
      exact absurd hca (by decide)
    · rcases List.mem_append.1 h1 with h2 | h2
      · have hpc := hall '\n' (by rw [hd]; exact List.mem_cons_of_mem _ h2)
        exact absurd hpc (by decide)
      · exact hr '\n' h2 rfl

mutual
/-- Emitted mapping lines are good physical lines. -/
theorem goodF : ∀ (f : Fields) (i : Nat), wfF f = true → goodLines (emitF i f)
  | .nil, i, _ => by
      rw [emitF.eq_1]
      intro l hl
      exact absurd hl (List.not_mem_nil l)
  | .cons k v t, i, hwf => by
      have hw : plainStr k = true ∧ wfV v = true ∧ wfF t = true := by
        have h1 := hwf
        simp only [wfF, Bool.and_eq_true] at h1
        exact ⟨h1.1.1, h1.1.2, h1.2⟩
      obtain ⟨hk, hv, ht⟩ := hw
      cases hsc : scalarChars v with
      | some sc =>
          rw [emitF_cons_some i k v t hsc]
          obtain ⟨_, hnl, _, _, _⟩ := scalarChars_props hv hsc
          refine goodLines_cons ?_ (goodF t i ht)
          refine good_key_line hk ?_
          intro c hc
          rcases List.mem_cons.1 hc with h | h
          · rw [h]; decide
          · rcases List.mem_cons.1 h with h2 | h2
            · rw [h2]; decide
            · exact hnl c h2
      | none =>
          rw [emitF_cons_none i k v t hsc]
          refine goodLines_cons ?_ (goodLines_append ?_ (goodF t i ht))
          · refine good_key_line hk ?_
            intro c hc
            rcases List.mem_cons.1 hc with h | h
            · rw [h]; decide
            · exact absurd h (List.not_mem_nil c)
          · cases v with
            | varr e => exact goodE e i (by simpa [wfV] using hv)
            | vobj f => exact goodV (.vobj f) (i + 2) hv
            | vstr s => cases hsc
            | vint n => cases hsc
            | vbool b => cases hsc
            | vnull => cases hsc

/-- Emitted container-block lines are good physical lines. -/
theorem goodV : ∀ (v : Val) (i : Nat), wfV v = true → goodLines (emitV i v)
  | .vstr s, i, _ => by
      intro l hl
      exact absurd hl (List.not_mem_nil l)
  | .vint n, i, _ => by
      intro l hl
      exact absurd hl (List.not_mem_nil l)
  | .vbool b, i, _ => by
      intro l hl
      exact absurd hl (List.not_mem_nil l)
  | .vnull, i, _ => by
      intro l hl
      exact absurd hl (List.not_mem_nil l)
  | .varr e, i, hwf => goodE e i (by simpa [wfV] using hwf)
  | .vobj f, i, hwf => goodF f i (by simp only [wfV, Bool.and_eq_true] at hwf; exact hwf.2)

/-- Emitted sequence lines are good physical lines. -/
theorem goodE : ∀ (e : Elems) (i : Nat), wfE e = true → goodLines (emitE i e)
  | .nil, i, _ => by
      rw [emitE.eq_1]
      intro l hl
      exact absurd hl (List.not_mem_nil l)
  | .cons v t, i, hwf => by
      have hw : wfV v = true ∧ wfE t = true := by
        have h1 := hwf
        simp only [wfE, Bool.and_eq_true] at h1
        exact h1
      obtain ⟨hv, ht⟩ := hw
      cases hsc : scalarChars v with
      | some sc =>
          rw [emitE_cons_some i v t hsc]
          obtain ⟨_, hnl, _, _, _⟩ := scalarChars_props hv hsc
          refine goodLines_cons ⟨by simp, ?_, ?_⟩ (goodE t i ht)
          · intro c hc
            simp only [List.head?_cons, Option.mem_def, Option.some.injEq] at hc
            rw [← hc]
            decide
          · intro hm
            rcases List.mem_cons.1 hm with h | h
            · exact absurd h.symm (by decide)
            · rcases List.mem_cons.1 h with h2 | h2
              · exact absurd h2.symm (by decide)
              · exact hnl '\n' h2 rfl
      | none =>
          have hne := emitV_ne_nil (i + 2) v hsc
          cases hv2 : emitV (i + 2) v with
          | nil => exact absurd hv2 hne
          | cons l0 tl =>
              obtain ⟨j0, c0⟩ := l0
              rw [emitE_cons_none i v t j0 c0 tl hsc hv2]
              have hgood := goodV v (i + 2) hv
              have h0 := hgood (j0, c0) (by rw [hv2]; simp)
              obtain ⟨_, _, h0nl⟩ := h0
              refine goodLines_cons ⟨by simp, ?_, ?_⟩
                (goodLines_append (fun l hl => hgood l (by rw [hv2]; simp [hl])) (goodE t i ht))
              · intro c hc
                simp only [List.head?_cons, Option.mem_def, Option.some.injEq] at hc
                rw [← hc]
                decide
              · intro hm
                rcases List.mem_cons.1 hm with h | h
                · exact absurd h.symm (by decide)
                · rcases List.mem_cons.1 h with h2 | h2
                  · exact absurd h2.symm (by decide)
                  · exact h0nl h2
end

end Devexy

namespace Devexy

/-- Recover the subtype-level equation behind `parseFieldsW`. -/
theorem parseFieldsW_inv {i : Nat} {ls : List Line} {f : Fields} {rs : List Line}
    (h : parseFieldsW i ls = some (f, rs)) :
    ∃ hle : lineMeasure rs ≤ lineMeasure ls, parseFields i ls = some (f, ⟨rs, hle⟩) := by
  unfold parseFieldsW at h
  cases hp : parseFields i ls with
  | none => rw [hp] at h; cases h
  | some p =>
      obtain ⟨f0, rs0, hle0⟩ := p
      rw [hp] at h
      simp only [Option.map_some', Option.some.injEq, Prod.mk.injEq] at h
      obtain ⟨h1, h2⟩ := h
      subst h1
      subst h2
      exact ⟨hle0, rfl⟩

/-- Recover the subtype-level equation behind `parseChildW`. -/
theorem parseChildW_inv {i : Nat} {ls : List Line} {v : Val} {rs : List Line}
    (h : parseChildW i ls = some (v, rs)) :
    ∃ hle : lineMeasure rs ≤ lineMeasure ls, parseChild i ls = some (v, ⟨rs, hle⟩) := by
  unfold parseChildW at h
  cases hp : parseChild i ls with
  | none => rw [hp] at h; cases h
  | some p =>
      obtain ⟨v0, rs0, hle0⟩ := p
      rw [hp] at h
      simp only [Option.map_some', Option.some.injEq, Prod.mk.injEq] at h
      obtain ⟨h1, h2⟩ := h
      subst h1
      subst h2
      exact ⟨hle0, rfl⟩

/-- Recover the subtype-level equation behind `parseElemsW`. -/
theorem parseElemsW_inv {i : Nat} {ls : List Line} {e : Elems} {rs : List Line}
    (h : parseElemsW i ls = some (e, rs)) :
    ∃ hle : lineMeasure rs ≤ lineMeasure ls, parseElems i ls = some (e, ⟨rs, hle⟩) := by
  unfold parseElemsW at h
  cases hp : parseElems i ls with
  | none => rw [hp] at h; cases h
  | some p =>
      obtain ⟨e0, rs0, hle0⟩ := p
      rw [hp] at h
      simp only [Option.map_some', Option.some.injEq, Prod.mk.injEq] at h
      obtain ⟨h1, h2⟩ := h
      subst h1
      subst h2
      exact ⟨hle0, rfl⟩

/-- A dashed content line is literally dash-blank-rest. -/
theorem isDashed_shape {c : List Char} (h : isDashed c = true) :
    ∃ r, c = '-' :: ' ' :: r := by
  unfold isDashed at h
  split at h
  · exact ⟨_, rfl⟩
  · cases h

/-- The mapping parser stops at an end-of-block line. -/
theorem parseFields_stop (i : Nat) (rest : List Line) (h : restOkF i rest) :
    parseFields i rest = some (.nil, ⟨rest, Nat.le_refl _⟩) := by
  cases rest with
  | nil => rw [parseFields.eq_1]
  | cons l tl =>
      obtain ⟨j, c⟩ := l
      simp only [restOkF] at h
      have hcond : j ≠ i ∨ c = [] ∨ isDashed c = true := by
        rcases h with h | h
        · exact Or.inl (Nat.ne_of_lt h)
        · exact Or.inr (Or.inl h)
      rw [parseFields.eq_2, if_pos hcond]

/-- The sequence parser stops at an end-of-block line. -/
theorem parseElems_stop (i : Nat) (rest : List Line) (h : restOkE i rest) :
    parseElems i rest = some (.nil, ⟨rest, Nat.le_refl _⟩) := by
  cases rest with
  | nil => rw [parseElems.eq_1]
  | cons l tl =>
      obtain ⟨j, c⟩ := l
      simp only [restOkE] at h
      by_cases hd : isDashed c = true
      · obtain ⟨r, hr⟩ := isDashed_shape hd
        subst hr
        rw [parseElems.eq_2, if_neg ?_]
        rcases h with h | h | h
        · omega
        · cases h
        · exact absurd hd (by rw [h.2]; simp)
      · rw [parseElems.eq_3 _ _ _ ?_]
        intro j2 r2 hl
        apply hd
        have : c = '-' :: ' ' :: r2 := congrArg Prod.snd hl
        rw [this]
        rfl

end Devexy

namespace Devexy

/-- A mapping end-of-block line also ends a sequence block. -/
theorem restOkE_of_restOkF {i : Nat} {rest : List Line} (h : restOkF i rest) :
    restOkE i rest := by
  cases rest with
  | nil => trivial
  | cons l tl =>
      obtain ⟨j, c⟩ := l
      simp only [restOkF] at h
      rcases h with h | h
      · exact Or.inl h
      · exact Or.inr (Or.inl h)

/-- A sequence end-of-block line at indent `i` ends deeper blocks too. -/
theorem restOkE_lift {i : Nat} {rest : List Line} (h : restOkE i rest) :
    restOkE (i + 2) rest := by
  cases rest with
  | nil => trivial
  | cons l tl =>
      obtain ⟨j, c⟩ := l
      simp only [restOkE] at h ⊢
      rcases h with h | h | h
      · exact Or.inl (by omega)
      · exact Or.inr (Or.inl h)
      · exact Or.inl (by omega)

/-- A sequence end-of-block line at indent `i` ends mapping blocks two
columns deeper. -/
theorem restOkF_of_restOkE_lift {i : Nat} {rest : List Line} (h : restOkE i rest) :
    restOkF (i + 2) rest := by
  cases rest with
  | nil => trivial
  | cons l tl =>
      obtain ⟨j, c⟩ := l
      simp only [restOkE, restOkF] at h ⊢
      rcases h with h | h | h
      · exact Or.inl (by omega)
      · exact Or.inr h
      · exact Or.inl (by omega)

/-- First-line shape of a nonempty emitted mapping block: the key's
indent, content led by the plain key, not dashed, nonempty, holding a
colon. -/
theorem emitF_shape (i : Nat) (k : String) (v : Val) (t : Fields)
    (hk : plainStr k = true) :
    ∃ c0 tail, emitF i (.cons k v t) = (i, c0) :: tail ∧ isDashed c0 = false ∧
      c0 ≠ [] ∧ (c0.any (· = ':')) = true ∧ (∃ r, c0 = k.data ++ ':' :: r) := by
  obtain ⟨kc, kcs, hkd, hkca, _, _⟩ := plainStr_parts hk
  have hkne : kc ≠ '-' := ne_of_pred_false Char.isAlpha hkca (by decide)
  cases hsc : scalarChars v with
  | some sc =>
      refine ⟨k.data ++ ':' :: ' ' :: sc, emitF i t, emitF_cons_some i k v t hsc, ?_, ?_, ?_, ⟨_, rfl⟩⟩
      · rw [hkd, List.cons_append]
        exact isDashed_false_head _ hkne
      · rw [hkd]
        simp
      · refine List.any_eq_true.2 ⟨':', ?_, by simp⟩
        exact List.mem_append.2 (Or.inr (by simp))
  | none =>
      refine ⟨k.data ++ [':'], emitChild i v ++ emitF i t, emitF_cons_none i k v t hsc, ?_, ?_, ?_, ⟨_, rfl⟩⟩
      · rw [hkd, List.cons_append]
        exact isDashed_false_head _ hkne
      · rw [hkd]
        simp
      · refine List.any_eq_true.2 ⟨':', ?_, by simp⟩
        exact List.mem_append.2 (Or.inr (by simp))

/-- First-line shape of a nonempty emitted sequence block: a dashed
line at the block's indent. -/
theorem emitE_shape (i : Nat) (v : Val) (t : Elems) :
    ∃ s0 tail, emitE i (.cons v t) = (i, '-' :: ' ' :: s0) :: tail := by
  cases hsc : scalarChars v with
  | some sc => exact ⟨sc, emitE i t, emitE_cons_some i v t hsc⟩
  | none =>
      have hne := emitV_ne_nil (i + 2) v hsc
      cases hv2 : emitV (i + 2) v with
      | nil => exact absurd hv2 hne
      | cons l0 tl =>
          obtain ⟨j0, c0⟩ := l0
          exact ⟨c0, tl ++ emitE i t, emitE_cons_none i v t j0 c0 tl hsc hv2⟩

/-- Fields of `wfF` conjuncts. -/
theorem wfF_cons_parts {k : String} {v : Val} {t : Fields}
    (h : wfF (.cons k v t) = true) :
    plainStr k = true ∧ wfV v = true ∧ wfF t = true := by
  simp only [wfF, Bool.and_eq_true] at h
  exact ⟨h.1.1, h.1.2, h.2⟩

/-- Fields of `wfE` conjuncts. -/
theorem wfE_cons_parts {v : Val} {t : Elems} (h : wfE (.cons v t) = true) :
    wfV v = true ∧ wfE t = true := by
  simp only [wfE, Bool.and_eq_true] at h
  exact h

/-- A nonempty-container value under `scalarChars = none`. -/
theorem scalarChars_none_shape {v : Val} (h : scalarChars v = none) :
    (∃ x u, v = .varr (.cons x u)) ∨ (∃ k x u, v = .vobj (.cons k x u)) := by
  cases v with
  | vstr s => cases h
  | vint n => cases h
  | vbool b => cases h
  | vnull => cases h
  | varr e =>
      cases e with
      | nil => cases h
      | cons x u => exact Or.inl ⟨x, u, rfl⟩
  | vobj f =>
      cases f with
      | nil => cases h
      | cons k x u => exact Or.inr ⟨k, x, u, rfl⟩

/-- Lines of an emitted mapping block followed by an end-of-block line
end a sequence block at the same indent. -/
theorem restOkE_of_emitF_append (i : Nat) (t : Fields) (rest : List Line)
    (hwt : wfF t = true) (hrest : restOkF i rest) :
    restOkE i (emitF i t ++ rest) := by
  cases t with
  | nil =>
      rw [emitF.eq_1, List.nil_append]
      exact restOkE_of_restOkF hrest
  | cons k2 v2 t2 =>
      obtain ⟨hk2, _, _⟩ := wfF_cons_parts hwt
      obtain ⟨c0, tail, hsh, hnd, _, _, _⟩ := emitF_shape i k2 v2 t2 hk2
      rw [hsh, List.cons_append]
      exact Or.inr (Or.inr ⟨rfl, hnd⟩)

/-- Lines of an emitted sequence block followed by an end-of-block line
end a sequence block two columns deeper. -/
theorem restOkE_of_emitE_append (i : Nat) (t : Elems) (rest : List Line)
    (hrest : restOkE i rest) : restOkE (i + 2) (emitE i t ++ rest) := by
  cases t with
  | nil =>
      rw [emitE.eq_1, List.nil_append]
      exact restOkE_lift hrest
  | cons x u =>
      obtain ⟨s0, tail, hsh⟩ := emitE_shape i x u
      rw [hsh, List.cons_append]
      exact Or.inl (by omega)

/-- Lines of an emitted sequence block followed by an end-of-block line
end a mapping block two columns deeper. -/
theorem restOkF_of_emitE_append (i : Nat) (t : Elems) (rest : List Line)
    (hrest : restOkE i rest) : restOkF (i + 2) (emitE i t ++ rest) := by
  cases t with
  | nil =>
      rw [emitE.eq_1, List.nil_append]
      exact restOkF_of_restOkE_lift hrest
  | cons x u =>
      obtain ⟨s0, tail, hsh⟩ := emitE_shape i x u
      rw [hsh, List.cons_append]
      exact Or.inl (by omega)

end Devexy

namespace Devexy

/-- An emitted mapping-entry line never triggers the parser's
end-of-block guard. -/
theorem key_line_guard (i : Nat) {k : String} (hk : plainStr k = true) (r : List Char) :
    ¬(i ≠ i ∨ k.data ++ ':' :: r = [] ∨ isDashed (k.data ++ ':' :: r) = true) := by
  obtain ⟨kc, kcs, hkd, hkca, _, _⟩ := plainStr_parts hk
  intro h
  rcases h with h | h | h
  · exact h rfl
  · rw [hkd, List.cons_append] at h
    cases h
  · rw [hkd, List.cons_append,
      isDashed_false_head _ (ne_of_pred_false Char.isAlpha hkca (by decide))] at h
    cases h

/-- Plain keys contain no colon. -/
theorem key_colon_free {k : String} (hk : plainStr k = true) : ∀ c ∈ k.data, c ≠ ':' := by
  obtain ⟨_, _, _, _, hall, _⟩ := plainStr_parts hk
  intro c hc
  exact plainChar_not_colon (hall c hc)

mutual
/-- The mapping parser inverts the mapping emitter on well-formed
fields, leaving an end-of-block rest untouched. -/
theorem parseF_emitF : ∀ (f : Fields) (i : Nat) (rest : List Line),
    wfF f = true → restOkF i rest →
    parseFieldsW i (emitF i f ++ rest) = some (f, rest)
  | .nil, i, rest, _, hrest => by
      rw [emitF.eq_1, List.nil_append]
      unfold parseFieldsW
      rw [parseFields_stop i rest hrest]
      rfl
  | .cons k v t, i, rest, hwf, hrest => by
      obtain ⟨hk, hv, ht⟩ := wfF_cons_parts hwf
      cases hsc : scalarChars v with
      | some sc =>
          rw [emitF_cons_some i k v t hsc, List.cons_append]
          unfold parseFieldsW
          rw [parseFields.eq_2, if_neg (key_line_guard i hk (' ' :: sc))]
          simp only [takeWhile_append_colon k.data (' ' :: sc) (key_colon_free hk), drop_key]
          have ihw := parseF_emitF t i rest ht hrest
          obtain ⟨hle, hEq⟩ := parseFieldsW_inv ihw
          rw [hEq]
          simp only [resolveScalar_scalarChars hv hsc]
          rfl
      | none =>
          rw [emitF_cons_none i k v t hsc, List.cons_append, List.append_assoc]
          unfold parseFieldsW
          rw [parseFields.eq_2, if_neg (key_line_guard i hk [])]
          simp only [takeWhile_append_colon k.data [] (key_colon_free hk), drop_key]
          have hrE : restOkE i (emitF i t ++ rest) := restOkE_of_emitF_append i t rest ht hrest
          have ihc := parseC_emitChild v i (emitF i t ++ rest) hv hsc hrE
          obtain ⟨hle1, hEq1⟩ := parseChildW_inv ihc
          rw [hEq1]
          simp only []
          have ihw := parseF_emitF t i rest ht hrest
          obtain ⟨hle2, hEq2⟩ := parseFieldsW_inv ihw
          rw [hEq2]
          rfl

/-- The child parser inverts the child emitter on well-formed nonempty
containers. -/
theorem parseC_emitChild : ∀ (v : Val) (i : Nat) (rest : List Line),
    wfV v = true → scalarChars v = none → restOkE i rest →
    parseChildW i (emitChild i v ++ rest) = some (v, rest)
  | v, i, rest, hv, hsc, hrest => by
      rcases scalarChars_none_shape hsc with ⟨x, u, hveq⟩ | ⟨k2, x, u, hveq⟩
      · subst hveq
        obtain ⟨s0, tail, hsh⟩ := emitE_shape i x u
        show parseChildW i (emitE i (.cons x u) ++ rest) = some (.varr (.cons x u), rest)
        rw [hsh, List.cons_append]
        unfold parseChildW
        rw [parseChild.eq_2, if_pos ⟨rfl, rfl⟩]
        have heql : (i, '-' :: ' ' :: s0) :: (tail ++ rest) = emitE i (.cons x u) ++ rest := by
          rw [hsh, List.cons_append]
        have ihe := parseE_emitE (.cons x u) i rest (by simpa [wfV] using hv) hrest
        have ihe2 : parseElemsW i ((i, '-' :: ' ' :: s0) :: (tail ++ rest))
            = some (.cons x u, rest) := by
          rw [heql]
          exact ihe
        obtain ⟨hle, hEq⟩ := parseElemsW_inv ihe2
        rw [hEq]
        rfl
      · subst hveq
        have hwfF2 : wfF (.cons k2 x u) = true := by
          simp only [wfV, Bool.and_eq_true] at hv
          exact hv.2
        obtain ⟨hk2, _, _⟩ := wfF_cons_parts hwfF2
        obtain ⟨c0, tail, hsh, hnd0, hne0, _, _⟩ := emitF_shape (i + 2) k2 x u hk2
        show parseChildW i (emitF (i + 2) (.cons k2 x u) ++ rest) = some (.vobj (.cons k2 x u), rest)
        rw [hsh, List.cons_append]
        unfold parseChildW
        rw [parseChild.eq_2, if_neg (by rintro ⟨h1, _⟩; omega), if_pos rfl]
        have heql : (i + 2, c0) :: (tail ++ rest) = emitF (i + 2) (.cons k2 x u) ++ rest := by
          rw [hsh, List.cons_append]
        have ihf := parseF_emitF (.cons k2 x u) (i + 2) rest hwfF2 (restOkF_of_restOkE_lift hrest)
        have ihf2 : parseFieldsW (i + 2) ((i + 2, c0) :: (tail ++ rest))
            = some (.cons k2 x u, rest) := by
          rw [heql]
          exact ihf
        obtain ⟨hle, hEq⟩ := parseFieldsW_inv ihf2
        rw [hEq]
        rfl

/-- The sequence parser inverts the sequence emitter on well-formed
elements, leaving an end-of-block rest untouched. -/
theorem parseE_emitE : ∀ (e : Elems) (i : Nat) (rest : List Line),
    wfE e = true → restOkE i rest →
    parseElemsW i (emitE i e ++ rest) = some (e, rest)
  | .nil, i, rest, _, hrest => by
      rw [emitE.eq_1, List.nil_append]
      unfold parseElemsW
      rw [parseElems_stop i rest hrest]
      rfl
  | .cons v t, i, rest, hwf, hrest => by
      obtain ⟨hv, ht⟩ := wfE_cons_parts hwf
      cases hsc : scalarChars v with
      | some sc =>
          obtain ⟨hne, _, hcol, hnd, _⟩ := scalarChars_props hv hsc
          rw [emitE_cons_some i v t hsc, List.cons_append]
          unfold parseElemsW
          rw [parseElems.eq_2, if_pos rfl, if_neg (by simp [hnd]),
            if_neg (by simp [any_colon_false hcol])]
          have ihe := parseE_emitE t i rest ht hrest
          obtain ⟨hle, hEq⟩ := parseElemsW_inv ihe
          rw [hEq]
          simp only [resolveScalar_scalarChars hv hsc]
          rfl
      | none =>
          rcases scalarChars_none_shape hsc with ⟨x, u, hveq⟩ | ⟨k2, x, u, hveq⟩
          · subst hveq
            obtain ⟨s0, tail, hsh⟩ := emitE_shape (i + 2) x u
            rw [emitE_cons_none i _ t (i + 2) ('-' :: ' ' :: s0) tail hsc hsh,
              List.cons_append]
            unfold parseElemsW
            rw [parseElems.eq_2, if_pos rfl,
              if_pos (show isDashed ('-' :: ' ' :: s0) = true from rfl)]
            have heql : (i + 2, '-' :: ' ' :: s0) :: ((tail ++ emitE i t) ++ rest)
                = emitE (i + 2) (.cons x u) ++ (emitE i t ++ rest) := by
              rw [hsh]
              simp
            have ihe := parseE_emitE (.cons x u) (i + 2) (emitE i t ++ rest)
              (by simpa [wfV] using hv) (restOkE_of_emitE_append i t rest hrest)
            have ihe2 : parseElemsW (i + 2) ((i + 2, '-' :: ' ' :: s0) :: ((tail ++ emitE i t) ++ rest))
                = some (.cons x u, emitE i t ++ rest) := by
              rw [heql]
              exact ihe
            obtain ⟨hle1, hEq1⟩ := parseElemsW_inv ihe2
            rw [hEq1]
            simp only []
            have iht := parseE_emitE t i rest ht hrest
            obtain ⟨hle2, hEq2⟩ := parseElemsW_inv iht
            rw [hEq2]
            rfl
          · subst hveq
            have hwfF2 : wfF (.cons k2 x u) = true := by
              simp only [wfV, Bool.and_eq_true] at hv
              exact hv.2
            obtain ⟨hk2, _, _⟩ := wfF_cons_parts hwfF2
            obtain ⟨c0, tail, hsh, hnd0, hne0, hany, _⟩ := emitF_shape (i + 2) k2 x u hk2
            rw [emitE_cons_none i _ t (i + 2) c0 tail hsc hsh, List.cons_append]
            unfold parseElemsW
            rw [parseElems.eq_2, if_pos rfl, if_neg (by simp [hnd0]), if_pos hany]
            have heql : (i + 2, c0) :: ((tail ++ emitE i t) ++ rest)
                = emitF (i + 2) (.cons k2 x u) ++ (emitE i t ++ rest) := by
              rw [hsh]
              simp
            have ihf := parseF_emitF (.cons k2 x u) (i + 2) (emitE i t ++ rest)
              hwfF2 (restOkF_of_emitE_append i t rest hrest)
            have ihf2 : parseFieldsW (i + 2) ((i + 2, c0) :: ((tail ++ emitE i t) ++ rest))
                = some (.cons k2 x u, emitE i t ++ rest) := by
              rw [heql]
              exact ihf
            obtain ⟨hle1, hEq1⟩ := parseFieldsW_inv ihf2
            rw [hEq1]
            simp only []
            have iht := parseE_emitE t i rest ht hrest
            obtain ⟨hle2, hEq2⟩ := parseElemsW_inv iht
            rw [hEq2]
            rfl
end

end Devexy

namespace Devexy

/-- Loading the emitted empty document yields the empty mapping. -/
theorem yaml_load_emit_nil :
    yaml_safe_load_doc (String.mk ('\x7b' :: '\x7d' :: '\n' :: [])) = some .nil := by
  rfl

/-- Loading the emitted text of a well-formed nonempty mapping yields
that mapping back. -/
theorem yaml_load_emit_cons (k : String) (v : Val) (t : Fields)
    (hwf : wfF (.cons k v t) = true) :
    yaml_safe_load_doc (String.mk (joinLines (emitF 0 (.cons k v t)))) = some (.cons k v t) := by
  obtain ⟨hk, _, _⟩ := wfF_cons_parts hwf
  obtain ⟨c0, tail, hsh, _, hne0, _, r0, hc0⟩ := emitF_shape 0 k v t hk
  obtain ⟨kc, kcs, hkd, hkca, _, _⟩ := plainStr_parts hk
  have hls : (splitNL (joinLines (emitF 0 (.cons k v t)))).map lexLine
      = emitF 0 (.cons k v t) ++ [(0, [])] :=
    splitNL_joinLines _ (goodF _ 0 hwf)
  have hnebr : c0 ≠ ['\x7b', '\x7d'] := by
    rw [hc0, hkd, List.cons_append]
    exact cons_ne_of_head (ne_of_pred_false Char.isAlpha hkca (by decide))
  have heql : (0, c0) :: (tail ++ [(0, [])])
      = emitF 0 (.cons k v t) ++ [(0, [])] := by
    rw [hsh, List.cons_append]
  have ihf := parseF_emitF (.cons k v t) 0 [(0, [])] hwf (Or.inr rfl)
  have ihf2 : parseFieldsW 0 ((0, c0) :: (tail ++ [(0, [])]))
      = some (.cons k v t, [(0, [])]) := by
    rw [heql]
    exact ihf
  obtain ⟨hle, hEq⟩ := parseFieldsW_inv ihf2
  unfold yaml_safe_load_doc
  simp only []
  rw [hls, hsh, List.cons_append]
  simp only []
  rw [if_neg hnebr, hEq]
  simp only []
  rfl

end Devexy

namespace Devexy

/-- Key membership after sorted insertion. -/
theorem hasKey_insF (k k0 : String) (v : Val) : ∀ (f : Fields),
    (insF k0 v f).hasKey k = (decide (k0 = k) || f.hasKey k)
  | .nil => by simp [insF, Fields.hasKey]
  | .cons k2 v2 t => by
      by_cases hle : k0 ≤ k2
      · simp [insF, hle, Fields.hasKey]
      · simp only [insF, if_neg hle, Fields.hasKey, hasKey_insF k k0 v t]
        cases decide (k2 = k) <;> simp

/-- Key membership is invariant under sorting. -/
theorem hasKey_sortF (k : String) : ∀ (f : Fields),
    (sortF f).hasKey k = f.hasKey k
  | .nil => rfl
  | .cons k2 v2 t => by
      simp only [sortF, hasKey_insF, hasKey_sortF k t, Fields.hasKey]

/-- Sorted insertion of a fresh key preserves key freshness. -/
theorem keysFresh_insF (k0 : String) (v : Val) : ∀ (f : Fields),
    f.hasKey k0 = false → keysFresh f = true → keysFresh (insF k0 v f) = true
  | .nil, _, _ => by simp [insF, keysFresh, Fields.hasKey]
  | .cons k2 v2 t, hnk, hfr => by
      simp only [Fields.hasKey, Bool.or_eq_false_iff, decide_eq_false_iff_not] at hnk
      obtain ⟨hne, hnk2⟩ := hnk
      simp only [keysFresh, Bool.and_eq_true, Bool.not_eq_true'] at hfr
      obtain ⟨hk2t, hfrt⟩ := hfr
      by_cases hle : k0 ≤ k2
      · simp only [insF, if_pos hle, keysFresh, Bool.and_eq_true, Bool.not_eq_true']
        refine ⟨?_, ?_⟩
        · simp [Fields.hasKey, hnk2, hne]
        · simp_all [keysFresh]
      · simp only [insF, if_neg hle, keysFresh, Bool.and_eq_true, Bool.not_eq_true']
        refine ⟨?_, keysFresh_insF k0 v t hnk2 hfrt⟩
        rw [hasKey_insF]
        simp only [Bool.or_eq_false_iff, decide_eq_false_iff_not]
        exact ⟨fun he => hne he.symm, hk2t⟩

/-- Sorting preserves key freshness. -/
theorem keysFresh_sortF : ∀ (f : Fields), keysFresh f = true → keysFresh (sortF f) = true
  | .nil, _ => rfl
  | .cons k2 v2 t, hfr => by
      simp only [keysFresh, Bool.and_eq_true, Bool.not_eq_true'] at hfr
      obtain ⟨hk2t, hfrt⟩ := hfr
      simp only [sortF]
      refine keysFresh_insF k2 v2 (sortF t) ?_ (keysFresh_sortF t hfrt)
      rw [hasKey_sortF]
      exact hk2t

/-- Sorted insertion preserves entrywise well-formedness. -/
theorem wfF_insF (k0 : String) (v : Val) : ∀ (f : Fields),
    plainStr k0 = true → wfV v = true → wfF f = true → wfF (insF k0 v f) = true
  | .nil, hk, hv, _ => by simp [insF, wfF, hk, hv]
  | .cons k2 v2 t, hk, hv, hwf => by
      obtain ⟨hk2, hv2, ht⟩ := wfF_cons_parts hwf
      by_cases hle : k0 ≤ k2
      · simp only [insF, if_pos hle, wfF, Bool.and_eq_true]
        exact ⟨⟨hk, hv⟩, ⟨hk2, hv2⟩, ht⟩
      · simp only [insF, if_neg hle, wfF, Bool.and_eq_true]
        exact ⟨⟨hk2, hv2⟩, wfF_insF k0 v t hk hv ht⟩

/-- Sorting preserves entrywise well-formedness. -/
theorem wfF_sortF : ∀ (f : Fields), wfF f = true → wfF (sortF f) = true
  | .nil, _ => rfl
  | .cons k2 v2 t, hwf => by
      obtain ⟨hk2, hv2, ht⟩ := wfF_cons_parts hwf
      simp only [sortF]
      exact wfF_insF k2 v2 (sortF t) hk2 hv2 (wfF_sortF t ht)

/-- Canonicalization commutes with sorted insertion. -/
theorem canonF_insF (k0 : String) (v : Val) : ∀ (f : Fields),
    canonF (insF k0 v f) = insF k0 (canonV v) (canonF f)
  | .nil => rfl
  | .cons k2 v2 t => by
      by_cases hle : k0 ≤ k2
      · simp [insF, hle, canonF]
      · simp [insF, hle, canonF, canonF_insF k0 v t]

/-- Canonicalization commutes with sorting. -/
theorem canonF_sortF : ∀ (f : Fields), canonF (sortF f) = sortF (canonF f)
  | .nil => rfl
  | .cons k2 v2 t => by
      simp only [sortF, canonF, canonF_insF, canonF_sortF t]

/-- Keys are invariant under canonicalization. -/
theorem hasKey_canonF (k : String) : ∀ (f : Fields),
    (canonF f).hasKey k = f.hasKey k
  | .nil => rfl
  | .cons k2 v2 t => by simp only [canonF, Fields.hasKey, hasKey_canonF k t]

/-- Key freshness is invariant under canonicalization. -/
theorem keysFresh_canonF : ∀ (f : Fields), keysFresh (canonF f) = keysFresh f
  | .nil => rfl
  | .cons k2 v2 t => by
      simp only [canonF, keysFresh, hasKey_canonF, keysFresh_canonF t]

/-- Sorted insertion below a bound stays bounded. -/
theorem sortedF_insF (k0 : String) (v : Val) : ∀ (f : Fields),
    sortedF f = true → sortedF (insF k0 v f) = true
  | .nil, _ => rfl
  | .cons k2 v2 t, hs => by
      by_cases hle : k0 ≤ k2
      · simp only [insF, if_pos hle, sortedF, Bool.and_eq_true, decide_eq_true_eq]
        exact ⟨hle, hs⟩
      · have hlt : k2 ≤ k0 := le_of_not_le hle
        simp only [insF, if_neg hle]
        cases t with
        | nil =>
            simp only [insF, sortedF, Bool.and_eq_true, decide_eq_true_eq]
            exact ⟨hlt, trivial⟩
        | cons k3 v3 t3 =>
            have hs2 : decide (k2 ≤ k3) = true ∧ sortedF (.cons k3 v3 t3) = true := by
              simpa [sortedF, Bool.and_eq_true] using hs
            have hrec := sortedF_insF k0 v (.cons k3 v3 t3) hs2.2
            by_cases hle3 : k0 ≤ k3
            · simp only [insF, if_pos hle3] at hrec ⊢
              simp only [sortedF, Bool.and_eq_true, decide_eq_true_eq] at hrec ⊢
              exact ⟨hlt, hrec⟩
            · simp only [insF, if_neg hle3] at hrec ⊢
              simp only [sortedF, Bool.and_eq_true, decide_eq_true_eq] at hrec ⊢
              exact ⟨by simpa using hs2.1, hrec⟩

/-- Insertion sort sorts. -/
theorem sortedF_sortF : ∀ (f : Fields), sortedF (sortF f) = true
  | .nil => rfl
  | .cons k2 v2 t => sortedF_insF k2 v2 (sortF t) (sortedF_sortF t)

/-- Sorting is the identity on sorted fields. -/
theorem sortF_eq_self : ∀ (f : Fields), sortedF f = true → sortF f = f
  | .nil, _ => rfl
  | .cons k2 v2 t, hs => by
      cases t with
      | nil => rfl
      | cons k3 v3 t3 =>
          have hs2 : decide (k2 ≤ k3) = true ∧ sortedF (.cons k3 v3 t3) = true := by
            simpa [sortedF, Bool.and_eq_true] using hs
          have hrec := sortF_eq_self (.cons k3 v3 t3) hs2.2
          simp only [sortF] at hrec ⊢
          rw [hrec]
          show (if k2 ≤ k3 then Fields.cons k2 v2 (.cons k3 v3 t3)
              else Fields.cons k3 v3 (insF k2 v2 t3)) = Fields.cons k2 v2 (.cons k3 v3 t3)
          rw [if_pos (show k2 ≤ k3 by simpa using hs2.1)]

/-- Sorting is idempotent. -/
theorem sortF_sortF (f : Fields) : sortF (sortF f) = sortF f :=
  sortF_eq_self (sortF f) (sortedF_sortF f)

end Devexy

namespace Devexy

mutual
/-- Canonicalization of values is idempotent. -/
theorem canonV_canonV : ∀ (v : Val), canonV (canonV v) = canonV v
  | .vstr s => rfl
  | .vint n => rfl
  | .vbool b => rfl
  | .vnull => rfl
  | .varr e => by simp only [canonV, canonE_canonE e]
  | .vobj f => by
      simp only [canonV]
      rw [canonF_sortF, sortF_sortF, canonF_canonF f]

/-- Canonicalization of sequences is idempotent. -/
theorem canonE_canonE : ∀ (e : Elems), canonE (canonE e) = canonE e
  | .nil => rfl
  | .cons v t => by simp only [canonE, canonV_canonV v, canonE_canonE t]

/-- Entrywise canonicalization of mappings is idempotent. -/
theorem canonF_canonF : ∀ (f : Fields), canonF (canonF f) = canonF f
  | .nil => rfl
  | .cons k v t => by simp only [canonF, canonV_canonV v, canonF_canonF t]
end

/-- The canonical form of a document is a fixed point of
canonicalization-plus-sorting. -/
theorem canon_idem (d : Fields) :
    sortF (canonF (sortF (canonF d))) = sortF (canonF d) := by
  rw [canonF_sortF, canonF_canonF, sortF_sortF]

mutual
/-- Canonicalization preserves value well-formedness. -/
theorem wfV_canonV : ∀ (v : Val), wfV v = true → wfV (canonV v) = true
  | .vstr s, h => h
  | .vint n, h => h
  | .vbool b, h => h
  | .vnull, h => h
  | .varr e, h => by
      simp only [canonV, wfV] at h ⊢
      exact wfE_canonE e h
  | .vobj f, h => by
      simp only [canonV, wfV, Bool.and_eq_true] at h ⊢
      obtain ⟨hfr, hwf⟩ := h
      refine ⟨?_, wfF_sortF _ (wfF_canonF f hwf)⟩
      exact keysFresh_sortF _ (by rw [keysFresh_canonF]; exact hfr)

/-- Canonicalization preserves sequence well-formedness. -/
theorem wfE_canonE : ∀ (e : Elems), wfE e = true → wfE (canonE e) = true
  | .nil, h => h
  | .cons v t, h => by
      obtain ⟨hv, ht⟩ := wfE_cons_parts h
      simp only [canonE, wfE, Bool.and_eq_true]
      exact ⟨wfV_canonV v hv, wfE_canonE t ht⟩

/-- Entrywise canonicalization preserves mapping well-formedness. -/
theorem wfF_canonF : ∀ (f : Fields), wfF f = true → wfF (canonF f) = true
  | .nil, h => h
  | .cons k v t, h => by
      obtain ⟨hk, hv, ht⟩ := wfF_cons_parts h
      simp only [canonF, wfF, Bool.and_eq_true]
      exact ⟨⟨hk, wfV_canonV v hv⟩, wfF_canonF t ht⟩
end

end Devexy

namespace Devexy

/-- Sorted insertions of distinct keys commute. -/
theorem insF_comm (k k2 : String) (v v2 : Val) (hne : k ≠ k2) : ∀ (f : Fields),
    insF k v (insF k2 v2 f) = insF k2 v2 (insF k v f)
  | .nil => by
      by_cases h1 : k ≤ k2
      · have h2 : ¬ k2 ≤ k := fun hle => hne (le_antisymm h1 hle)
        simp [insF, h1, h2]
      · have h2 : k2 ≤ k := le_of_not_le h1
        simp [insF, h1, h2]
  | .cons k3 v3 t => by
      by_cases h2 : k2 ≤ k3 <;> by_cases h1 : k ≤ k3
      · by_cases h3 : k ≤ k2
        · have h4 : ¬ k2 ≤ k := fun hle => hne (le_antisymm h3 hle)
          simp [insF, h1, h2, h3, h4]
        · have h4 : k2 ≤ k := le_of_not_le h3
          simp [insF, h1, h2, h3, h4]
      · have h3 : ¬ k ≤ k2 := fun hle => h1 (le_trans hle h2)
        have h4 : k2 ≤ k := le_of_not_le h3
        simp [insF, h1, h2, h3, h4]
      · have h3 : ¬ k2 ≤ k := fun hle => h2 (le_trans hle h1)
        have h4 : k ≤ k2 := le_of_not_le h3
        simp [insF, h1, h2, h3, h4]
      · simp [insF, h1, h2, insF_comm k k2 v v2 hne t]

/-- A removable key is present. -/
theorem hasKey_of_remove : ∀ {g : Fields} {k : String} {w : Val} {g2 : Fields},
    FieldsRemove g k w g2 → g.hasKey k = true
  | _, _, _, _, .head => by simp [Fields.hasKey]
  | _, _, _, _, .tail hrem => by
      simp [Fields.hasKey, hasKey_of_remove hrem]

/-- Removal can only lose keys. -/
theorem hasKey_remove_mono : ∀ {g : Fields} {k : String} {w : Val} {g2 : Fields},
    FieldsRemove g k w g2 → ∀ x, g2.hasKey x = true → g.hasKey x = true
  | _, _, _, _, .head, x, hx => by simp [Fields.hasKey, hx]
  | _, _, _, _, .tail hrem, x, hx => by
      simp only [Fields.hasKey, Bool.or_eq_true] at hx ⊢
      rcases hx with h | h
      · exact Or.inl h
      · exact Or.inr (hasKey_remove_mono hrem x h)

/-- Removal from a duplicate-free mapping leaves a duplicate-free
mapping without the removed key. -/
theorem remove_fresh : ∀ {g : Fields} {k : String} {w : Val} {g2 : Fields},
    FieldsRemove g k w g2 → keysFresh g = true →
    keysFresh g2 = true ∧ g2.hasKey k = false
  | _, _, _, _, .head, hfr => by
      simp only [keysFresh, Bool.and_eq_true, Bool.not_eq_true'] at hfr
      exact ⟨hfr.2, hfr.1⟩
  | _, _, _, _, .tail hrem, hfr => by
      simp only [keysFresh, Bool.and_eq_true, Bool.not_eq_true'] at hfr
      obtain ⟨hk't, hfrt⟩ := hfr
      obtain ⟨hfr2, hnk⟩ := remove_fresh hrem hfrt
      refine ⟨?_, ?_⟩
      · simp only [keysFresh, Bool.and_eq_true, Bool.not_eq_true']
        refine ⟨?_, hfr2⟩
        cases hx : Fields.hasKey _ _ with
        | false => rfl
        | true => exact absurd (hasKey_remove_mono hrem _ hx) (by rw [hk't]; exact fun h => Bool.false_ne_true h)
      · simp only [Fields.hasKey, Bool.or_eq_false_iff, decide_eq_false_iff_not]
        refine ⟨?_, hnk⟩
        intro he
        rw [he] at hk't
        rw [hasKey_of_remove hrem] at hk't
        cases hk't

/-- Removal commutes with entrywise canonicalization. -/
theorem canonF_remove : ∀ {g : Fields} {k : String} {w : Val} {g2 : Fields},
    FieldsRemove g k w g2 → FieldsRemove (canonF g) k (canonV w) (canonF g2)
  | _, _, _, _, .head => by
      simp only [canonF]
      exact .head
  | _, _, _, _, .tail hrem => by
      simp only [canonF]
      exact .tail (canonF_remove hrem)

/-- Removal preserves mapping well-formedness, and the removed value is
well-formed. -/
theorem wfF_remove : ∀ {g : Fields} {k : String} {w : Val} {g2 : Fields},
    FieldsRemove g k w g2 → wfF g = true → wfV w = true ∧ wfF g2 = true
  | _, _, _, _, .head, hwf => by
      obtain ⟨_, hv, ht⟩ := wfF_cons_parts hwf
      exact ⟨hv, ht⟩
  | _, _, _, _, .tail hrem, hwf => by
      obtain ⟨hk', hv', ht⟩ := wfF_cons_parts hwf
      obtain ⟨hw, ht'⟩ := wfF_remove hrem ht
      refine ⟨hw, ?_⟩
      simp only [wfF, Bool.and_eq_true]
      exact ⟨⟨hk', hv'⟩, ht'⟩

/-- Sorting turns removal into a sorted insertion (for duplicate-free
keys). -/
theorem sortF_remove : ∀ {g : Fields} {k : String} {w : Val} {g2 : Fields},
    FieldsRemove g k w g2 → keysFresh g = true → sortF g = insF k w (sortF g2)
  | _, _, _, _, .head, _ => rfl
  | _, _, _, _, @FieldsRemove.tail t k w t' k' v' hrem, hfr => by
      simp only [keysFresh, Bool.and_eq_true, Bool.not_eq_true'] at hfr
      obtain ⟨hk't, hfrt⟩ := hfr
      have hne : k' ≠ k := by
        intro he
        rw [he] at hk't
        rw [hasKey_of_remove hrem] at hk't
        cases hk't
      show insF k' v' (sortF t) = insF k w (sortF (.cons k' v' t'))
      rw [sortF_remove hrem hfrt]
      show insF k' v' (insF k w (sortF t')) = insF k w (insF k' v' (sortF t'))
      exact insF_comm k' k v' w hne (sortF t')

end Devexy

namespace Devexy

mutual
/-- Logically equal well-formed values share one canonical form. -/
theorem equivV_canon : ∀ {a b : Val}, EquivV a b → wfV a = true → wfV b = true →
    canonV a = canonV b
  | _, _, .str, _, _ => rfl
  | _, _, .int, _, _ => rfl
  | _, _, .bool, _, _ => rfl
  | _, _, .null, _, _ => rfl
  | _, _, .arr h, ha, hb => by
      simp only [canonV]
      rw [equivE_canon h (by simpa [wfV] using ha) (by simpa [wfV] using hb)]
  | _, _, .obj h, ha, hb => by
      simp only [wfV, Bool.and_eq_true] at ha hb
      simp only [canonV]
      rw [equivF_canon h ha.2 hb.2 hb.1]

/-- Logically equal well-formed sequences share one canonical form. -/
theorem equivE_canon : ∀ {a b : Elems}, EquivE a b → wfE a = true → wfE b = true →
    canonE a = canonE b
  | _, _, .nil, _, _ => rfl
  | _, _, .cons hv ht, ha, hb => by
      obtain ⟨hav, hat⟩ := wfE_cons_parts ha
      obtain ⟨hbv, hbt⟩ := wfE_cons_parts hb
      simp only [canonE]
      rw [equivV_canon hv hav hbv, equivE_canon ht hat hbt]

/-- Logically equal well-formed mappings (duplicate-free on the right)
share one sorted canonical form. -/
theorem equivF_canon : ∀ {a b : Fields}, EquivF a b → wfF a = true → wfF b = true →
    keysFresh b = true → sortF (canonF a) = sortF (canonF b)
  | _, _, .nil, _, _, _ => rfl
  | _, _, .cons hrem hvw htg, ha, hb, hfr => by
      obtain ⟨hk, hv, ht⟩ := wfF_cons_parts ha
      obtain ⟨hw, hg2⟩ := wfF_remove hrem hb
      obtain ⟨hfr2, _⟩ := remove_fresh hrem hfr
      have hsr := sortF_remove (canonF_remove hrem) (by rw [keysFresh_canonF]; exact hfr)
      simp only [canonF, sortF]
      rw [hsr, equivV_canon hvw hv hw, equivF_canon htg ht hg2 hfr2]
end

end Devexy

namespace Devexy

mutual
/-- Soundness of the fuel-bounded value comparison. -/
theorem eqvV_sound : ∀ (n : Nat) (a b : Val), eqvV n a b = true → EquivV a b
  | n + 1, .vstr s, .vstr t, h => by
      have hst : s = t := by simpa [eqvV] using h
      rw [hst]
      exact .str
  | n + 1, .vint m, .vint m2, h => by
      have hm : m = m2 := by simpa [eqvV] using h
      rw [hm]
      exact .int
  | n + 1, .vbool a, .vbool b, h => by
      have hab : a = b := by simpa [eqvV] using h
      rw [hab]
      exact .bool
  | n + 1, .vnull, .vnull, _ => .null
  | n + 1, .varr a, .varr b, h => .arr (eqvE_sound n a b (by simpa [eqvV] using h))
  | n + 1, .vobj f, .vobj g, h => .obj (eqvF_sound n f g (by simpa [eqvV] using h))

/-- Soundness of the fuel-bounded sequence comparison. -/
theorem eqvE_sound : ∀ (n : Nat) (a b : Elems), eqvE n a b = true → EquivE a b
  | n + 1, .nil, .nil, _ => .nil
  | n + 1, .cons v t, .cons w u, h => by
      have h2 : eqvV n v w = true ∧ eqvE n t u = true := by
        simpa [eqvE, Bool.and_eq_true] using h
      exact .cons (eqvV_sound n v w h2.1) (eqvE_sound n t u h2.2)

/-- Soundness of the fuel-bounded mapping comparison. -/
theorem eqvF_sound : ∀ (n : Nat) (a b : Fields), eqvF n a b = true → EquivF a b
  | n + 1, .nil, .nil, _ => .nil
  | n + 1, .cons k v t, g, h => by
      simp only [eqvF] at h
      cases hrm : removeMatch n k v g with
      | none => rw [hrm] at h; cases h
      | some g2 =>
          rw [hrm] at h
          obtain ⟨w, hrem, hvw⟩ := removeMatch_sound n k v g g2 hrm
          exact .cons hrem hvw (eqvF_sound n t g2 h)

/-- Soundness of the fuel-bounded find-and-remove. -/
theorem removeMatch_sound : ∀ (n : Nat) (k : String) (v : Val) (g g2 : Fields),
    removeMatch n k v g = some g2 → ∃ w, FieldsRemove g k w g2 ∧ EquivV v w
  | n + 1, k, v, .cons k2 v2 t, g2, h => by
      simp only [removeMatch] at h
      by_cases hc : (decide (k2 = k) && eqvV n v v2) = true
      · rw [if_pos hc] at h
        injection h with h
        simp only [Bool.and_eq_true, decide_eq_true_eq] at hc
        obtain ⟨hk2, hvv⟩ := hc
        subst hk2
        subst h
        exact ⟨v2, .head, eqvV_sound n v v2 hvv⟩
      · rw [if_neg hc] at h
        cases hrm : removeMatch n k v t with
        | none => rw [hrm] at h; cases h
        | some t2 =>
            rw [hrm] at h
            injection h with h
            obtain ⟨w, hrem, hvw⟩ := removeMatch_sound n k v t t2 hrm
            subst h
            exact ⟨w, .tail hrem, hvw⟩
end

end Devexy

namespace Devexy

/-- Documents with equal sorted canonical forms print identically. -/
theorem dict_to_yaml_congr {d e : Fields} (h : sortF (canonF d) = sortF (canonF e)) :
    dict_to_yaml d = dict_to_yaml e := by
  unfold dict_to_yaml
  rw [h]

/-- Loading the canonical YAML of a well-formed document yields its
sorted canonical form. -/
theorem dict_to_yaml_load (d : Fields) (hwf : wfV (.vobj d) = true) :
    yaml_safe_load_doc (dict_to_yaml d) = some (sortF (canonF d)) := by
  have hwfd : wfF d = true := by
    simp only [wfV, Bool.and_eq_true] at hwf
    exact hwf.2
  have hwfc : wfF (sortF (canonF d)) = true := wfF_sortF _ (wfF_canonF d hwfd)
  unfold dict_to_yaml
  cases hF : sortF (canonF d) with
  | nil => exact yaml_load_emit_nil
  | cons k v t =>
      exact yaml_load_emit_cons k v t (by rw [← hF]; exact hwfc)

end Devexy

namespace Devexy

/-- C6: for well-formed manifest documents, decoding the canonical YAML
emitted by `dict_to_yaml` succeeds and returns the sorted canonical form
of the document, whose canonical hash equals the original document's
canonical hash (`hash_canonical(D) = hash_canonical(decode(encode(D)))`);
and `dict_to_yaml` is deterministic: logically equal documents (equal as
key-value multisets, recursively) produce byte-equal output. -/
theorem c6_canonical_roundtrip (sha1 : String → String) (d e : Fields)
    (hd : wfV (.vobj d) = true) (he : wfV (.vobj e) = true) (heq : EquivF d e) :
    yaml_safe_load_doc (dict_to_yaml d) = some (sortF (canonF d)) ∧
    hash_canonical sha1 (sortF (canonF d)) = hash_canonical sha1 d ∧
    dict_to_yaml d = dict_to_yaml e := by
  have hwfd : wfF d = true := by
    simp only [wfV, Bool.and_eq_true] at hd
    exact hd.2
  have hwfe : wfF e = true := by
    simp only [wfV, Bool.and_eq_true] at he
    exact he.2
  have hfre : keysFresh e = true := by
    simp only [wfV, Bool.and_eq_true] at he
    exact he.1
  refine ⟨dict_to_yaml_load d hd, ?_, ?_⟩
  · unfold hash_canonical quick_hash
    exact congrArg sha1 (dict_to_yaml_congr (canon_idem d))
  · exact dict_to_yaml_congr (equivF_canon heq hwfd hwfe hfre)

end Devexy

namespace Devexy

/-- Witness for the C6 theorem at the concrete sample document and a
key-permuted variant, with the identity digest function. -/
theorem c6_canonical_roundtrip_witness :
    wfV (.vobj wfSampleDoc) = true ∧ wfV (.vobj wfSampleDocPerm) = true ∧
    (yaml_safe_load_doc (dict_to_yaml wfSampleDoc) = some (sortF (canonF wfSampleDoc)) ∧
     hash_canonical (fun s => s) (sortF (canonF wfSampleDoc))
        = hash_canonical (fun s => s) wfSampleDoc ∧
     dict_to_yaml wfSampleDoc = dict_to_yaml wfSampleDocPerm) :=
  ⟨by rfl, by rfl,
   c6_canonical_roundtrip (fun s => s) wfSampleDoc wfSampleDocPerm (by rfl) (by rfl)
     (eqvF_sound 100 _ _ (by rfl))⟩

end Devexy
